import Mathlib

/-!
Verification of the configuration path-virtualization subsystem of
bcbio-nextgen-vm (`bcbiovm/docker/mounts.py`).

The Python module is shallowly embedded: the host filesystem is a structure
`FS` holding the existence test (`os.path.exists`), symlink resolution
(`os.path.realpath`) and the working directory (`os.getcwd`); POSIX path
functions (`os.path.join`, `os.path.split`, `os.path.normpath`,
`os.path.isabs`, Python `str.split('/')`) are implemented as pure functions
on character lists; configuration trees are the inductive `Val` (Python
dicts, strings, lists of strings possibly holding `None`, and other scalars);
raised exceptions (`KeyError`, `TypeError`) become `Except PyErr`.
-/

/-- Lexicographic code-point comparison of character lists: the comparison
Python's `sorted` performs on strings. -/
def charListLe : List Char → List Char → Bool
  | [], _ => true
  | _ :: _, [] => false
  | a :: as, b :: bs => if a < b then true else if a = b then charListLe as bs else false

/-- Python string `<=` (lexicographic by code point). -/
def strLe (a b : String) : Bool := charListLe a.data b.data

/-- Python `s.startswith(p)` as a test on the underlying characters. -/
def strPrefix (p s : String) : Bool := p.data.isPrefixOf s.data

/-- Does the string start with the POSIX separator `/`
(`path.startswith(sep)` in `posixpath`)? -/
def startsWithSlash (s : String) : Bool := s.data.head? = some '/' 

/-- Does the string end with `/` (`path.endswith(sep)` in `posixpath`)? -/
def endsWithSlash (s : String) : Bool := s.data.getLast? = some '/' 

/-- os.path.isabs: a POSIX path is absolute iff it starts with `/`. -/
def isAbs (s : String) : Bool := startsWithSlash s

/-- os.path.join(a, b) for POSIX paths: an absolute second component discards
the first; otherwise the separator is inserted unless already present. -/
def pathJoin (a b : String) : String :=
  if startsWithSlash b then b
  else if a = "" then a ++ b
  else if endsWithSlash a then a ++ b
  else a ++ "/" ++ b

/-- os.path.split(p): the part after the last `/` is the tail; the head keeps
everything before it, stripped of trailing separators unless it consists of
separators only. -/
def pathSplit (p : String) : String × String :=
  let cs := p.data
  let tail := (cs.reverse.takeWhile (fun c => c ≠ '/')).reverse
  let head := cs.take (cs.length - tail.length)
  let head2 :=
    if head.isEmpty then head
    else if head.all (fun c => c = '/') then head
    else (head.reverse.dropWhile (fun c => c = '/')).reverse
  (⟨head2⟩, ⟨tail⟩)

/-- os.path.dirname. -/
def dirname (p : String) : String := (pathSplit p).1

/-- os.path.basename (the tail of os.path.split). -/
def basename (p : String) : String := (pathSplit p).2

/-- Python `s.split('/')`: accumulate characters, breaking at every `/`. -/
def splitSlashAux : List Char → List Char → List String
  | [], acc => [⟨acc.reverse⟩]
  | c :: cs, acc =>
    if c = '/' then ⟨acc.reverse⟩ :: splitSlashAux cs []
    else splitSlashAux cs (c :: acc)

/-- Python `s.split('/')`. -/
def splitSlash (s : String) : List String := splitSlashAux s.data []

/-- Python `'/'.join(parts)`. -/
def joinSlash : List String → String
  | [] => ""
  | [x] => x
  | x :: xs => x ++ "/" ++ joinSlash xs

/-- Component loop of posixpath.normpath: drop empty and `.` components; a
`..` is appended when the path is relative with no components yet or the last
kept component is itself `..`, and otherwise pops the last kept component
(or is dropped at the root). The accumulator holds kept components reversed. -/
def normpathComps (initSlashes : Bool) : List String → List String → List String
  | [], acc => acc.reverse
  | c :: rest, acc =>
    if c = "" ∨ c = "." then normpathComps initSlashes rest acc
    else if c ≠ ".." ∨ (¬ initSlashes ∧ acc = []) ∨ acc.head? = some ".." then
      normpathComps initSlashes rest (c :: acc)
    else
      match acc with
      | [] => normpathComps initSlashes rest []
      | _ :: acc' => normpathComps initSlashes rest acc'

/-- os.path.normpath for POSIX paths: collapse separators and `.`/`..`
segments; exactly two leading slashes are preserved, any other number
collapses to one; the empty result becomes `.`. -/
def normpath (path : String) : String :=
  if path = "" then "." else
  let initialSlashes : Nat :=
    if startsWithSlash path then
      if strPrefix "//" path ∧ ¬ strPrefix "///" path then 2 else 1
    else 0
  let comps := splitSlash path
  let newComps := normpathComps (initialSlashes ≠ 0) comps []
  let out : String := ⟨List.replicate initialSlashes '/'⟩ ++ joinSlash newComps
  if out = "" then "." else out

/-- The host environment seen by mounts.py: `os.path.exists`,
`os.path.realpath` (symlink resolution, external to the module) and
`os.getcwd()`. -/
structure FS where
  fsExists : String → Bool
  realpath : String → String
  cwd : String

/-- Effect of os.makedirs(p) on the filesystem: the target and every missing
ancestor directory exist afterwards; nothing else changes. -/
def mkdirs (fs : FS) (p : String) : FS :=
  { fs with fsExists := fun q => q = p ∨ strPrefix (q ++ "/") p ∨ fs.fsExists q }

mutual
/-- A Python value inside a configuration tree: a string, a list/tuple whose
elements are strings or `None` (`_normalize_path` can put `None` into lists),
some other scalar (int, bool, None, ...; opaque to mounts.py), or a nested
dict. -/
inductive Val : Type where
  | vStr : String → Val
  | vList : List (Option String) → Val
  | vOther : Nat → Val
  | vDict : Entries → Val

/-- The entries of a Python dict in iteration (insertion) order. -/
inductive Entries : Type where
  | enil : Entries
  | econs : String → Val → Entries → Entries
end

deriving instance DecidableEq for Val
deriving instance DecidableEq for Entries

/-- First value stored under a key (Python dict lookup). -/
def entriesGet : Entries → String → Option Val
  | .enil, _ => none
  | .econs k' v rest, k => if k' = k then some v else entriesGet rest k

/-- Python dict assignment `d[k] = v`: an existing key keeps its position,
a new key is appended at the end. -/
def entriesSet : Entries → String → Val → Entries
  | .enil, k, v => .econs k v .enil
  | .econs k' v' rest, k, v =>
    if k' = k then .econs k' v rest else .econs k' v' (entriesSet rest k v)

/-- A raised Python exception: KeyError (with the missing key) or TypeError. -/
inductive PyErr : Type where
  | keyError : String → PyErr
  | typeError : PyErr

deriving instance DecidableEq for PyErr

deriving instance DecidableEq for Except

/-- Subscription `d[k]` on an arbitrary value: KeyError on a dict miss,
TypeError on non-dict values. -/
def dGetItem : Val → String → Except PyErr Val
  | .vDict es, k =>
    match entriesGet es k with
    | some v => .ok v
    | none => .error (.keyError k)
  | _, _ => .error .typeError

/-- Subscript assignment `d[k] = v`: TypeError on non-dict values. -/
def dSetItem : Val → String → Val → Except PyErr Val
  | .vDict es, k, v => .ok (.vDict (entriesSet es k v))
  | _, _, _ => .error .typeError

/-- A list element used where a string is required; Python `None` raises
TypeError inside os.path functions. -/
def expectStr : Option String → Except PyErr String
  | some s => .ok s
  | none => .error .typeError

/-- Truthiness of an optional string: Python `None` and `""` are falsy. -/
def truthyOpt : Option String → Bool
  | some s => s ≠ ""
  | none => false

/-- Lines 98-102 of mounts.py: try each base directory in order; the first
whose join with the candidate exists wins and is canonicalized with
realpath and normpath; otherwise the result is None. -/
def _normalize_path (fs : FS) (x : String) : List String → Option String
  | [] => none
  | b :: rest =>
    if fs.fsExists (pathJoin b x) then some (normpath (fs.realpath (pathJoin b x)))
    else _normalize_path fs x rest

/-- Lines 109-110 of mounts.py: `base_dirs = base_dirs if base_dirs else []`
followed by `base_dirs.append(os.getcwd())`.  The append is performed in
place on the caller's list object whenever the caller passed a non-empty
list, so in that case this result is also the caller's list after the call. -/
def resolvedBaseDirs (fs : FS) (base_dirs : Option (List String)) : List String :=
  (match base_dirs with
   | some l => if l.isEmpty then [] else l
   | none => []) ++ [fs.cwd]

/-- State of the caller's `base_dirs` list object after `abs_file_paths`
returns: the in-place append at line 110 happens only when `xs` is a dict
(the non-dict early return at lines 107-108 fires first) and the caller's
list is truthy (non-empty); otherwise a fresh list is used and the caller's
object is untouched. -/
def baseDirsAfterCall (fs : FS) (xs : Val) (base_dirs : List String) : List String :=
  match xs with
  | .vDict _ => if base_dirs.isEmpty then base_dirs else base_dirs ++ [fs.cwd]
  | _ => base_dirs

/-- Monadic map over a list in order, stopping at the first raised
exception: the evaluation order of a Python list comprehension or
accumulation loop. -/
def mapME {A B : Type} (f : A → Except PyErr B) : List A → Except PyErr (List B)
  | [] => .ok []
  | x :: xs => do
    let y ← f x
    let ys ← mapME f xs
    pure (y :: ys)

/-- One entry of the loop at lines 113-119 of mounts.py: a truthy string not
under an ignored key is replaced by its normalization when one exists; a
truthy list/tuple whose first element normalizes to a truthy string is
replaced element-wise (elements that fail to normalize become None); all
other values pass through. -/
def absValue (fs : FS) (bds ig : List String) (k : String) (v : Val) : Except PyErr Val :=
  match v with
  | .vStr s =>
    .ok (if ig.contains k then .vStr s
         else if s = "" then .vStr s
         else match _normalize_path fs s bds with
           | some r => if r = "" then .vStr s else .vStr r
           | none => .vStr s)
  | .vList l =>
    if ig.contains k then .ok (.vList l)
    else
      match l with
      | [] => .ok (.vList l)
      | x :: _ => do
        let s0 ← expectStr x
        if truthyOpt (_normalize_path fs s0 bds) then do
          let ys ← mapME (fun e => do
            let t ← expectStr e
            pure (_normalize_path fs t bds)) l
          pure (.vList ys)
        else pure (.vList l)
  | v => .ok v

/-- The dict loop of abs_file_paths, entry by entry in iteration order. -/
def absEntries (fs : FS) (bds ig : List String) : Entries → Except PyErr Entries
  | .enil => .ok .enil
  | .econs k v rest => do
    let v' ← absValue fs bds ig k v
    let rest' ← absEntries fs bds ig rest
    pure (.econs k v' rest')

/-- Lines 104-120 of mounts.py: expand path-shaped fields of a one-level
dict to absolute, symlink-free form; non-dict arguments are returned
unchanged before the base-directory list is touched. -/
def abs_file_paths (fs : FS) (xs : Val) (base_dirs : Option (List String))
    (ignore : Option (List String)) : Except PyErr Val :=
  match xs with
  | .vDict es => do
    let bds := resolvedBaseDirs fs base_dirs
    let ig := ignore.getD []
    let es' ← absEntries fs bds ig es
    pure (.vDict es')
  | xs => .ok xs

mutual
/-- The dict loop of _get_directories (lines 89-96): dict values recurse;
a truthy absolute existing string contributes its dirname; a truthy
list/tuple whose first element exists contributes every element's dirname. -/
def getDirsEntries (fs : FS) : Entries → Except PyErr (List String)
  | .enil => .ok []
  | .econs _ v rest => do
    let ds ← getDirsValue fs v
    let rest' ← getDirsEntries fs rest
    pure (ds ++ rest')

/-- Directory contribution of one dict value in _get_directories. -/
def getDirsValue (fs : FS) : Val → Except PyErr (List String)
  | .vDict es => getDirsEntries fs es
  | .vStr s => .ok (if (s ≠ "") && fs.fsExists s && isAbs s then [dirname s] else [])
  | .vList [] => .ok []
  | .vList (x :: rest) => do
    let s0 ← expectStr x
    if fs.fsExists s0 then
      mapME (fun e => do
        let t ← expectStr e
        pure (dirname t)) (x :: rest)
    else pure []
  | .vOther _ => .ok []
end

/-- Lines 83-96 of mounts.py: retrieve all directories specified in an input
file; non-dict input contributes nothing. -/
def _get_directories (fs : FS) (xs : Val) : Except PyErr (List String) :=
  match xs with
  | .vDict es => getDirsEntries fs es
  | _ => .ok []

/-- Association lookup in the mount mapping (Python `mounts[dirname]` is a
dict lookup; the miss case is handled at the call sites). -/
def dictGet : List (String × String) → String → Option String
  | [], _ => none
  | (k, v) :: rest, d => if k = d then some v else dictGet rest d

/-- Remap of one list element at lines 75-77 of mounts.py: split off the
directory, look it up in the mount mapping (KeyError on a miss) and join the
mount point with the base name; a None element raises TypeError inside
os.path.split. -/
def remapElem (mounts : List (String × String)) (x : Option String) :
    Except PyErr (Option String) := do
  let t ← expectStr x
  match dictGet mounts (dirname t) with
  | some m => pure (some (pathJoin m (basename t)))
  | none => .error (.keyError (dirname t))

mutual
/-- The dict loop of _remap_directories (lines 66-80), entry by entry. -/
def remapEntries (fs : FS) (es : Entries) (mounts : List (String × String)) :
    Except PyErr Entries :=
  match es with
  | .enil => .ok .enil
  | .econs k v rest => do
    let v' ← remapValue fs v mounts
    let rest' ← remapEntries fs rest mounts
    pure (.econs k v' rest')

/-- Remap of one dict value: dicts recurse; a truthy absolute existing string
is rewritten through the mount mapping (KeyError on a miss); a truthy
list/tuple whose first element exists is rewritten element-wise; everything
else passes through. -/
def remapValue (fs : FS) (v : Val) (mounts : List (String × String)) :
    Except PyErr Val :=
  match v with
  | .vDict es => do
    let es' ← remapEntries fs es mounts
    pure (.vDict es')
  | .vStr s =>
    if (s ≠ "") && fs.fsExists s && isAbs s then
      match dictGet mounts (dirname s) with
      | some m => .ok (.vStr (pathJoin m (basename s)))
      | none => .error (.keyError (dirname s))
    else .ok (.vStr s)
  | .vList [] => .ok (.vList [])
  | .vList (x :: rest) => do
    let s0 ← expectStr x
    if fs.fsExists s0 then do
      let ys ← mapME (remapElem mounts) (x :: rest)
      pure (.vList ys)
    else pure (.vList (x :: rest))
  | .vOther n => .ok (.vOther n)
end

/-- Lines 61-81 of mounts.py: remap files to point to internal docker
container mounts; non-dict input is returned unchanged. -/
def _remap_directories (fs : FS) (xs : Val) (mounts : List (String × String)) :
    Except PyErr Val :=
  match xs with
  | .vDict es => do
    let es' ← remapEntries fs es mounts
    pure (.vDict es')
  | xs => .ok xs

/-- Insertion step of a straight insertion sort by Python string order. -/
def insertSorted (x : String) : List String → List String
  | [] => [x]
  | y :: ys => if strLe x y then x :: y :: ys else y :: insertSorted x ys

/-- Sorting by Python string order; on duplicate-free input this computes
exactly Python's `sorted`. -/
def insertionSortStr : List String → List String
  | [] => []
  | x :: xs => insertSorted x (insertionSortStr xs)

/-- The `enumerate` loop of lines 34-35 of mounts.py: assign the i-th sorted
directory the mount point `os.path.join(input_dir, str(i))`. -/
def buildMountsAux (input_dir : String) : Nat → List String → List (String × String)
  | _, [] => []
  | i, d :: ds => (d, pathJoin input_dir (Nat.repr i)) :: buildMountsAux input_dir (i + 1) ds

/-- Lines 33-35 of mounts.py: deduplicate and sort the collected directories
and enumerate them into the mount mapping (Python's `sorted(set(...))` is the
sorted list of the distinct elements). -/
def buildMounts (input_dir : String) (dirs : List String) : List (String × String) :=
  buildMountsAux input_dir 0 (insertionSortStr dirs.dedup)

/-- The expression `[args.fcdir] if args.fcdir else None` at lines 25 and 28:
a falsy fcdir (None or the empty string) yields None. -/
def fcBaseDirs (fcdir : Option String) : Option (List String) :=
  match fcdir with
  | some f => if f = "" then none else some [f]
  | none => none

/-- Top-level ignore set of update_config (lines 26-27). -/
def topIgnore : List String :=
  ["description", "analysis", "resources", "genome_build", "lane"]

/-- Algorithm-level ignore set of update_config (lines 29-30). -/
def algIgnore : List String :=
  ["variantcaller", "realign", "recalibrate", "phasing", "svcaller"]

/-- Lines 25-30 of mounts.py: absolutize one sample dict at the top level and
then its "algorithm" sub-dict, each against its own ignore set. -/
def absDetail (fs : FS) (fcdir : Option String) (d : Val) : Except PyErr Val := do
  let d1 ← abs_file_paths fs d (fcBaseDirs fcdir) (some topIgnore)
  let alg ← dGetItem d1 "algorithm"
  let alg' ← abs_file_paths fs alg (fcBaseDirs fcdir) (some algIgnore)
  dSetItem d1 "algorithm" alg'

/-- One iteration of the loop at lines 24-32: absolutize the sample, then
collect its directories. -/
def detailStep (fs : FS) (fcdir : Option String) (d : Val) :
    Except PyErr (Val × List String) := do
  let d' ← absDetail fs fcdir d
  let dirs ← _get_directories fs d'
  pure (d', dirs)

/-- Lines 18-37 of mounts.py.  The function reads and rewrites only
`config["details"]` (a list of sample dicts) and uses only `args.fcdir` from
`args`, so it is embedded as acting on the details list directly; the second
component of the result is the `host:target` mount-spec list. -/
def update_config (fs : FS) (fcdir : Option String) (details : List Val)
    (input_dir : String) : Except PyErr (List Val × List String) := do
  let pairs ← mapME (detailStep fs fcdir) details
  let absdetails := pairs.map Prod.fst
  let directories := (pairs.map Prod.snd).flatten
  let mounts := buildMounts input_dir directories
  let newdetails ← mapME (fun d => _remap_directories fs d mounts) absdetails
  pure (newdetails, mounts.map (fun kv => kv.1 ++ ":" ++ kv.2))

/-- The loop of prepare_system (lines 10-15): canonicalize each biodata
directory name under the data dir, create it if absent and emit its mount
spec. -/
def prepare_system_loop (datadir docker_biodata_dir : String) :
    FS → List String → FS × List String
  | fs, [] => (fs, [])
  | fs, d :: ds =>
    let cur_d := normpath (fs.realpath (pathJoin datadir d))
    let fs' := if fs.fsExists cur_d then fs else mkdirs fs cur_d
    let r := prepare_system_loop datadir docker_biodata_dir fs' ds
    (r.1, (cur_d ++ ":" ++ docker_biodata_dir ++ "/" ++ d) :: r.2)

/-- Lines 7-16 of mounts.py: create the system mountpoints for the four
well-known biodata directories and return their mount specs. -/
def prepare_system (fs : FS) (datadir docker_biodata_dir : String) :
    FS × List String :=
  prepare_system_loop datadir docker_biodata_dir fs
    ["genomes", "liftOver", "gemini_data", "galaxy"]


def fsA : FS :=
  { fsExists := fun p => p = "/data/run1/sample.bam"
    realpath := fun p => p
    cwd := "/home/user" }

def detailA : Val :=
  .vDict (.econs "files" (.vStr "sample.bam")
    (.econs "algorithm" (.vDict (.econs "aligner" (.vStr "bwa") .enil)) .enil))

def detailC2 : Val :=
  .vDict (.econs "description" (.vStr "/data/run1/sample.bam")
    (.econs "algorithm" (.vDict .enil) .enil))

def fsC7 : FS :=
  { fsExists := fun p => p = "a.bam"
    realpath := fun p => p
    cwd := "/home/user" }

mutual
/-- A leaf that the remap pass classifies as a path and whose containing
directory is missing from the mount mapping, occurring anywhere inside a
dict value: an absolute existing truthy string whose dirname is not a key,
or an existing-first-element list one of whose string elements has a dirname
that is not a key. -/
def missingDirValue (fs : FS) (mounts : List (String × String)) : Val → Bool
  | .vStr s =>
    (s ≠ "") && fs.fsExists s && isAbs s && (dictGet mounts (dirname s)).isNone
  | .vList (some s :: rest) =>
    fs.fsExists s &&
      (some s :: rest).any (fun x =>
        match x with
        | some t => (dictGet mounts (dirname t)).isNone
        | none => false)
  | .vList _ => false
  | .vOther _ => false
  | .vDict es => missingDirEntries fs mounts es

/-- Entry-wise missingDirValue test over a dict. -/
def missingDirEntries (fs : FS) (mounts : List (String × String)) : Entries → Bool
  | .enil => false
  | .econs _ v rest => missingDirValue fs mounts v || missingDirEntries fs mounts rest
end

mutual
/-- Shape-and-frame relation between a dict value and its remap image: dicts
keep the same keys in the same order and relate entry-wise; a path-classified
string becomes some string; a classified list becomes a list of equal length;
every other value is returned exactly. -/
def shapeFrameValue (fs : FS) : Val → Val → Bool
  | .vStr s, out =>
    if (s ≠ "") && fs.fsExists s && isAbs s then
      (match out with
       | .vStr _ => true
       | _ => false)
    else decide (out = .vStr s)
  | .vList l, out =>
    (match out with
     | .vList l2 =>
       (l2.length = l.length) &&
         (if (match l with
              | some s :: _ => fs.fsExists s
              | _ => false) then true
          else decide (l2 = l))
     | _ => false)
  | .vOther n, out => decide (out = .vOther n)
  | .vDict es, out =>
    (match out with
     | .vDict es2 => shapeFrameEntries fs es es2
     | _ => false)

/-- Entry-wise shapeFrameValue with equal keys in equal order. -/
def shapeFrameEntries (fs : FS) : Entries → Entries → Bool
  | .enil, .enil => true
  | .econs k v rest, .econs k2 v2 rest2 =>
    decide (k = k2) && shapeFrameValue fs v v2 && shapeFrameEntries fs rest rest2
  | _, _ => false
end

/-- Navigation to the value stored at a key path inside nested dicts; a
non-dict value has no proper sub-positions. -/
def valAtV : List String → Val → Option Val
  | [], v => some v
  | k :: ks, .vDict es =>
    match entriesGet es k with
    | some v => valAtV ks v
    | none => none
  | _ :: _, _ => none

/-- Value at detail index i and key path ks inside a details list. -/
def valAtD (details : List Val) (i : Nat) (ks : List String) : Option Val :=
  match details[i]? with
  | some d => valAtV ks d
  | none => none

/-- A leaf value already under the mount root: a string with the root as a
prefix, or a list whose first element is such a string. -/
def underRoot (root : String) : Val → Bool
  | .vStr s => strPrefix root s
  | .vList (some s :: _) => strPrefix root s
  | _ => false

def detailA_abs : Val :=
  .vDict (.econs "files" (.vStr "/data/run1/sample.bam")
    (.econs "algorithm" (.vDict (.econs "aligner" (.vStr "bwa") .enil)) .enil))

def detailA_mapped : Val :=
  .vDict (.econs "files" (.vStr "/mnt/in/0/sample.bam")
    (.econs "algorithm" (.vDict (.econs "aligner" (.vStr "bwa") .enil)) .enil))


theorem pyBind_ok {A B : Type} (a : A) (f : A → Except PyErr B) :
    (Except.ok a >>= f) = f a := rfl

theorem pyBind_error {A B : Type} (e : PyErr) (f : A → Except PyErr B) :
    ((Except.error e : Except PyErr A) >>= f) = Except.error e := rfl

theorem pyPure {A : Type} (a : A) : (pure a : Except PyErr A) = Except.ok a := rfl

theorem isPrefixOf_refl (a : List Char) : a.isPrefixOf a = true := by
  induction a with
  | nil => rfl
  | cons x xs ih => simp [List.isPrefixOf, ih]

theorem isPrefixOf_append (a b c : List Char) (h : a.isPrefixOf b = true) :
    a.isPrefixOf (b ++ c) = true := by
  induction a generalizing b with
  | nil => simp [List.isPrefixOf]
  | cons x xs ih =>
    cases b with
    | nil => simp [List.isPrefixOf] at h
    | cons y bs =>
      simp only [List.isPrefixOf, Bool.and_eq_true, beq_iff_eq] at h
      simp only [List.cons_append, List.isPrefixOf, Bool.and_eq_true, beq_iff_eq]
      exact ⟨h.1, ih bs h.2⟩

theorem isPrefixOf_trans (a b c : List Char) (h1 : a.isPrefixOf b = true)
    (h2 : b.isPrefixOf c = true) : a.isPrefixOf c = true := by
  induction a generalizing b c with
  | nil => simp [List.isPrefixOf]
  | cons x xs ih =>
    cases b with
    | nil => simp [List.isPrefixOf] at h1
    | cons y bs =>
      cases c with
      | nil => simp [List.isPrefixOf] at h2
      | cons z cs =>
        simp only [List.isPrefixOf, Bool.and_eq_true, beq_iff_eq] at h1 h2 ⊢
        exact ⟨h1.1.trans h2.1, ih bs cs h1.2 h2.2⟩

theorem strData_append (a b : String) : (a ++ b).data = a.data ++ b.data := rfl

theorem strPrefix_refl (a : String) : strPrefix a a = true := isPrefixOf_refl a.data

theorem strPrefix_append (root a b : String) (h : strPrefix root a = true) :
    strPrefix root (a ++ b) = true := by
  unfold strPrefix at h ⊢
  rw [strData_append]
  exact isPrefixOf_append _ _ _ h

theorem strPrefix_trans (a b c : String) (h1 : strPrefix a b = true)
    (h2 : strPrefix b c = true) : strPrefix a c = true :=
  isPrefixOf_trans _ _ _ h1 h2

theorem startsWithSlash_of_strPrefix (root s : String)
    (hroot : startsWithSlash root = true) (h : strPrefix root s = true) :
    startsWithSlash s = true := by
  unfold startsWithSlash at hroot ⊢
  unfold strPrefix at h
  cases hr : root.data with
  | nil => rw [hr] at hroot; simp at hroot
  | cons c cs =>
    rw [hr] at hroot h
    simp only [List.head?, decide_eq_true_eq, Option.some.injEq] at hroot
    cases hs : s.data with
    | nil => rw [hs] at h; simp [List.isPrefixOf] at h
    | cons d ds =>
      rw [hs] at h
      simp only [List.isPrefixOf, Bool.and_eq_true, beq_iff_eq] at h
      simp only [List.head?, decide_eq_true_eq, Option.some.injEq]
      rw [← h.1]
      exact hroot

theorem pathJoin_absolute (a s : String) (h : startsWithSlash s = true) :
    pathJoin a s = s := by
  unfold pathJoin
  rw [if_pos h]

theorem charListLe_cons_iff (x y : Char) (xs ys : List Char) :
    charListLe (x :: xs) (y :: ys) = true ↔
      (x < y ∨ (x = y ∧ charListLe xs ys = true)) := by
  simp only [charListLe]
  by_cases h1 : x < y
  · simp [h1]
  · by_cases h2 : x = y
    · simp [h1, h2]
    · simp [h1, h2]

theorem charListLe_total : ∀ a b : List Char, charListLe a b = true ∨ charListLe b a = true := by
  intro a
  induction a with
  | nil => intro b; left; rfl
  | cons x xs ih =>
    intro b
    cases b with
    | nil => right; rfl
    | cons y ys =>
      rcases lt_trichotomy x y with h | h | h
      · left; rw [charListLe_cons_iff]; exact Or.inl h
      · subst h
        rcases ih ys with h2 | h2
        · left; rw [charListLe_cons_iff]; exact Or.inr ⟨rfl, h2⟩
        · right; rw [charListLe_cons_iff]; exact Or.inr ⟨rfl, h2⟩
      · right; rw [charListLe_cons_iff]; exact Or.inl h

theorem charListLe_antisymm : ∀ a b : List Char, charListLe a b = true →
    charListLe b a = true → a = b := by
  intro a
  induction a with
  | nil =>
    intro b h1 h2
    cases b with
    | nil => rfl
    | cons y ys => simp [charListLe] at h2
  | cons x xs ih =>
    intro b h1 h2
    cases b with
    | nil => simp [charListLe] at h1
    | cons y ys =>
      rw [charListLe_cons_iff] at h1 h2
      rcases h1 with h1 | ⟨rfl, h1'⟩
      · rcases h2 with h2 | ⟨rfl, _⟩
        · exact absurd h2 (lt_asymm h1)
        · exact absurd h1 (lt_irrefl _)
      · rcases h2 with h2 | ⟨_, h2'⟩
        · exact absurd h2 (lt_irrefl _)
        · rw [ih ys h1' h2']

theorem charListLe_trans : ∀ a b c : List Char, charListLe a b = true →
    charListLe b c = true → charListLe a c = true := by
  intro a
  induction a with
  | nil => intro b c _ _; rfl
  | cons x xs ih =>
    intro b c h1 h2
    cases b with
    | nil => simp [charListLe] at h1
    | cons y ys =>
      cases c with
      | nil => simp [charListLe] at h2
      | cons z zs =>
        rw [charListLe_cons_iff] at h1 h2 ⊢
        rcases h1 with h1 | ⟨rfl, h1'⟩
        · rcases h2 with h2 | ⟨rfl, h2'⟩
          · exact Or.inl (lt_trans h1 h2)
          · exact Or.inl h1
        · rcases h2 with h2 | ⟨rfl, h2'⟩
          · exact Or.inl h2
          · exact Or.inr ⟨rfl, ih ys zs h1' h2'⟩

theorem strLe_antisymm (a b : String) (h1 : strLe a b = true) (h2 : strLe b a = true) :
    a = b := by
  cases a with
  | mk da =>
    cases b with
    | mk db => exact congrArg String.mk (charListLe_antisymm da db h1 h2)

theorem strLe_trans (a b c : String) (h1 : strLe a b = true) (h2 : strLe b c = true) :
    strLe a c = true := charListLe_trans _ _ _ h1 h2

theorem strLe_total (a b : String) : strLe a b = true ∨ strLe b a = true :=
  charListLe_total a.data b.data


theorem insertSorted_perm (x : String) (l : List String) :
    (insertSorted x l).Perm (x :: l) := by
  induction l with
  | nil => exact List.Perm.refl _
  | cons y ys ih =>
    by_cases h : strLe x y = true
    · rw [insertSorted, if_pos h]
    · rw [insertSorted, if_neg h]
      exact (ih.cons y).trans (List.Perm.swap x y ys)

theorem insertionSortStr_perm (l : List String) : (insertionSortStr l).Perm l := by
  induction l with
  | nil => exact List.Perm.refl _
  | cons x xs ih =>
    have h := (insertSorted_perm x (insertionSortStr xs)).trans (List.Perm.cons x ih)
    simpa [insertionSortStr] using h

theorem sorted_insertSorted (x : String) (l : List String)
    (h : List.Sorted (fun a b => strLe a b = true) l) :
    List.Sorted (fun a b => strLe a b = true) (insertSorted x l) := by
  induction l with
  | nil => simp [insertSorted]
  | cons y ys ih =>
    rw [List.sorted_cons] at h
    obtain ⟨hy, hys⟩ := h
    by_cases hxy : strLe x y = true
    · rw [insertSorted, if_pos hxy, List.sorted_cons]
      refine ⟨?_, ?_⟩
      · intro b hb
        rcases List.mem_cons.mp hb with rfl | hb
        · exact hxy
        · exact strLe_trans _ _ _ hxy (hy b hb)
      · rw [List.sorted_cons]; exact ⟨hy, hys⟩
    · rw [insertSorted, if_neg hxy, List.sorted_cons]
      refine ⟨?_, ih hys⟩
      intro b hb
      rcases List.mem_cons.mp ((insertSorted_perm x ys).mem_iff.mp hb) with rfl | hb2
      · rcases strLe_total b y with h | h
        · exact absurd h hxy
        · exact h
      · exact hy b hb2

theorem sorted_insertionSortStr (l : List String) :
    List.Sorted (fun a b => strLe a b = true) (insertionSortStr l) := by
  induction l with
  | nil => simp [insertionSortStr]
  | cons x xs ih => simpa [insertionSortStr] using sorted_insertSorted x _ ih

theorem insertionSortStr_eq_of_mem (l1 l2 : List String) (h1 : l1.Nodup) (h2 : l2.Nodup)
    (h : ∀ x, x ∈ l1 ↔ x ∈ l2) : insertionSortStr l1 = insertionSortStr l2 := by
  have hp : l1.Perm l2 := (List.perm_ext_iff_of_nodup h1 h2).mpr h
  have hp2 : (insertionSortStr l1).Perm (insertionSortStr l2) :=
    (insertionSortStr_perm l1).trans (hp.trans (insertionSortStr_perm l2).symm)
  exact @List.eq_of_perm_of_sorted String (fun a b => strLe a b = true) ⟨strLe_antisymm⟩
    _ _ hp2 (sorted_insertionSortStr l1) (sorted_insertionSortStr l2)

theorem buildMountsAux_fst (root : String) :
    ∀ (n : Nat) (l : List String), (buildMountsAux root n l).map Prod.fst = l := by
  intro n l
  induction l generalizing n with
  | nil => rfl
  | cons d ds ih => simp [buildMountsAux, ih]

theorem mem_buildMountsAux (root : String) (n : Nat) (l : List String) (x t : String)
    (h : (x, t) ∈ buildMountsAux root n l) : x ∈ l := by
  have := List.mem_map_of_mem Prod.fst h
  rwa [buildMountsAux_fst] at this

theorem buildMountsAux_exists (root : String) :
    ∀ (l : List String) (n : Nat) (x : String), x ∈ l →
      ∃ t, (x, t) ∈ buildMountsAux root n l := by
  intro l
  induction l with
  | nil => intro n x h; cases h
  | cons d ds ih =>
    intro n x h
    rcases List.mem_cons.mp h with rfl | h2
    · exact ⟨pathJoin root (Nat.repr n), by simp [buildMountsAux]⟩
    · obtain ⟨t, ht⟩ := ih (n + 1) x h2
      exact ⟨t, by simp [buildMountsAux]; right; exact ht⟩

theorem buildMountsAux_lookup (root : String) :
    ∀ (l : List String) (n i : Nat) (d : String), l.Nodup → l[i]? = some d →
      dictGet (buildMountsAux root n l) d = some (pathJoin root (Nat.repr (n + i))) := by
  intro l
  induction l with
  | nil => intro n i d _ h; simp at h
  | cons a as ih =>
    intro n i d hnd h
    rw [List.nodup_cons] at hnd
    obtain ⟨ha, has⟩ := hnd
    cases i with
    | zero =>
      rw [List.getElem?_cons_zero] at h
      injection h with h
      subst h
      simp [buildMountsAux, dictGet]
    | succ j =>
      rw [List.getElem?_cons_succ] at h
      have hdmem : d ∈ as := List.getElem?_mem h
      have hd : a ≠ d := fun e => ha (e ▸ hdmem)
      have hrec := ih (n + 1) j d has h
      rw [buildMountsAux]
      rw [dictGet, if_neg hd, hrec]
      have : n + 1 + j = n + (j + 1) := by omega
      rw [this]

/-- C4: the key set of the mount mapping that update_config builds from the
absolutized details is exactly the set of directories collected by
_get_directories over those details — every collected directory receives a
mount point and no mount point is assigned to an uncollected directory. -/
theorem mount_mapping_key_bijection (fs : FS) (fcdir : Option String)
    (details : List Val) (input_dir : String) (pairs : List (Val × List String))
    (_h : mapME (detailStep fs fcdir) details = Except.ok pairs) :
    ∀ x, (∃ t, (x, t) ∈ buildMounts input_dir ((pairs.map Prod.snd).flatten)) ↔
      x ∈ (pairs.map Prod.snd).flatten := by
  intro x
  constructor
  · rintro ⟨t, ht⟩
    have hx : x ∈ insertionSortStr ((pairs.map Prod.snd).flatten).dedup :=
      mem_buildMountsAux input_dir 0 _ x t ht
    exact List.mem_dedup.mp ((insertionSortStr_perm _).mem_iff.mp hx)
  · intro hx
    have hx2 : x ∈ insertionSortStr ((pairs.map Prod.snd).flatten).dedup :=
      (insertionSortStr_perm _).mem_iff.mpr (List.mem_dedup.mpr hx)
    exact buildMountsAux_exists input_dir _ 0 x hx2

theorem mount_mapping_key_bijection_witness :
    ∃ t, ("/data/run1", t) ∈ buildMounts "/mnt/in"
      ((([(Val.vDict (.econs "files" (.vStr "/data/run1/sample.bam")
          (.econs "algorithm" (.vDict (.econs "aligner" (.vStr "bwa") .enil)) .enil)),
          ["/data/run1"])] : List (Val × List String)).map Prod.snd).flatten) := by
  have h0 : mapME (detailStep fsA (some "/data/run1")) [detailA] =
      Except.ok [(Val.vDict (.econs "files" (.vStr "/data/run1/sample.bam")
        (.econs "algorithm" (.vDict (.econs "aligner" (.vStr "bwa") .enil)) .enil)),
        ["/data/run1"])] := by decide
  exact (mount_mapping_key_bijection fsA (some "/data/run1") [detailA] "/mnt/in" _
    h0 "/data/run1").mpr (by decide)

/-- C5: the mount allocator is deterministic: two discovery sequences with
the same underlying set yield identical mount mappings, and each directory is
assigned the mount point formed from its zero-based position in the lexically
sorted deduplicated set. -/
theorem mount_allocator_deterministic (root : String) (l1 l2 : List String)
    (h : ∀ x, x ∈ l1 ↔ x ∈ l2) :
    buildMounts root l1 = buildMounts root l2 ∧
    ∀ i d, (insertionSortStr l1.dedup)[i]? = some d →
      dictGet (buildMounts root l1) d = some (pathJoin root (Nat.repr i)) := by
  constructor
  · unfold buildMounts
    rw [insertionSortStr_eq_of_mem l1.dedup l2.dedup (List.nodup_dedup l1)
      (List.nodup_dedup l2) (fun x => by rw [List.mem_dedup, List.mem_dedup]; exact h x)]
  · intro i d hd
    have hnd : (insertionSortStr l1.dedup).Nodup :=
      (insertionSortStr_perm _).nodup_iff.mpr (List.nodup_dedup l1)
    have := buildMountsAux_lookup root _ 0 i d hnd hd
    simpa using this

theorem mount_allocator_deterministic_witness :
    (∀ x, x ∈ ["/b", "/a", "/a"] ↔ x ∈ ["/a", "/b"]) ∧
    buildMounts "/mnt/in" ["/b", "/a", "/a"] = buildMounts "/mnt/in" ["/a", "/b"] ∧
    dictGet (buildMounts "/mnt/in" ["/b", "/a", "/a"]) "/b" = some "/mnt/in/1" := by
  have hmem : ∀ x, x ∈ ["/b", "/a", "/a"] ↔ x ∈ ["/a", "/b"] := by
    intro x; simp; tauto
  refine ⟨hmem, (mount_allocator_deterministic "/mnt/in" ["/b", "/a", "/a"]
    ["/a", "/b"] hmem).1, ?_⟩
  have h := (mount_allocator_deterministic "/mnt/in" ["/b", "/a", "/a"]
    ["/a", "/b"] hmem).2 1 "/b" (by decide)
  simpa using h

/-- C1: Scenario A: for the single detail with relative "files" =
"sample.bam" and algorithm {"aligner": "bwa"}, base dir /data/run1 holding
sample.bam and mount root /mnt/in, update_config rewrites files to
"/mnt/in/0/sample.bam", leaves the algorithm unchanged and returns the mount
spec list ["/data/run1:/mnt/in/0"]. -/
theorem update_config_scenario_a :
    update_config fsA (some "/data/run1") [detailA] "/mnt/in" =
      Except.ok ([.vDict (.econs "files" (.vStr "/mnt/in/0/sample.bam")
          (.econs "algorithm" (.vDict (.econs "aligner" (.vStr "bwa") .enil)) .enil))],
        ["/data/run1:/mnt/in/0"]) := by decide

theorem absValue_ignored (fs : FS) (bds ig : List String) (k : String) (v : Val)
    (hk : ig.contains k = true) : absValue fs bds ig k v = Except.ok v := by
  have hk2 : k ∈ ig := by simpa using hk
  cases v with
  | vStr s => simp [absValue, hk2]
  | vList l => simp [absValue, hk2]
  | vOther n => rfl
  | vDict es => rfl

theorem absEntries_ignored (fs : FS) (bds ig : List String) (k : String)
    (hk : ig.contains k = true) :
    ∀ es es', absEntries fs bds ig es = Except.ok es' →
      entriesGet es' k = entriesGet es k
  | .enil, es', h => by
    simp only [absEntries, Except.ok.injEq] at h
    rw [← h]
  | .econs k1 v rest, es', h => by
    rw [absEntries] at h
    rcases hv : absValue fs bds ig k1 v with e | v1 <;> rw [hv] at h
    · simp [pyBind_error] at h
    rcases hr : absEntries fs bds ig rest with e | rest1 <;> rw [hr] at h
    · simp [pyBind_ok, pyBind_error] at h
    simp only [pyBind_ok, pyPure, Except.ok.injEq] at h
    rw [← h]
    by_cases hk1 : k1 = k
    · subst hk1
      have h2 := absValue_ignored fs bds ig k1 v hk
      rw [h2] at hv
      injection hv with hv
      simp [entriesGet, hv]
    · simp only [entriesGet, if_neg hk1]
      exact absEntries_ignored fs bds ig k hk rest rest1 hr

/-- C2 (amended): a value stored under an ignored key is never rewritten by
the absolutization stage (abs_file_paths); the remap stage does not consult
the ignore sets, so an ignored value naming an existing absolute path can
still be rewritten there. -/
theorem abs_file_paths_respects_ignore (fs : FS) (base_dirs : Option (List String))
    (ig : List String) (es es' : Entries) (k : String)
    (h : abs_file_paths fs (.vDict es) base_dirs (some ig) = Except.ok (.vDict es'))
    (hk : ig.contains k = true) :
    entriesGet es' k = entriesGet es k := by
  rw [abs_file_paths] at h
  rcases he : absEntries fs (resolvedBaseDirs fs base_dirs) ((some ig).getD []) es
    with e | es1 <;> rw [he] at h
  · simp [pyBind_error] at h
  · simp only [pyBind_ok, pyPure, Except.ok.injEq, Val.vDict.injEq] at h
    rw [← h]
    simpa using absEntries_ignored fs (resolvedBaseDirs fs base_dirs) ig k hk es es1
      (by simpa using he)

theorem abs_file_paths_respects_ignore_witness :
    topIgnore.contains "description" = true ∧
    entriesGet (.econs "description" (.vStr "/data/run1/sample.bam") .enil) "description" =
      entriesGet (.econs "description" (.vStr "/data/run1/sample.bam") .enil) "description" :=
  ⟨by decide,
   abs_file_paths_respects_ignore fsA none topIgnore
     (.econs "description" (.vStr "/data/run1/sample.bam") .enil)
     (.econs "description" (.vStr "/data/run1/sample.bam") .enil)
     "description" (by decide) (by decide)⟩

/-- C2 fails as stated: under Scenario-A conditions a value stored under the
ignored key "description" that names an existing absolute path is rewritten
to a mount path by the remap pass of update_config. -/
theorem ignored_key_rewritten_by_remap :
    topIgnore.contains "description" = true ∧
    update_config fsA none [detailC2] "/mnt/in" =
      Except.ok ([.vDict (.econs "description" (.vStr "/mnt/in/0/sample.bam")
          (.econs "algorithm" (.vDict .enil) .enil))],
        ["/data/run1:/mnt/in/0"]) ∧
    Val.vStr "/mnt/in/0/sample.bam" ≠ Val.vStr "/data/run1/sample.bam" := by
  refine ⟨by decide, by decide, by decide⟩

/-- C10 fails as stated: with a non-dict first argument, abs_file_paths
returns at line 108 before the append at line 110 runs, so the caller's
non-empty base_dirs list is not mutated and does not grow. -/
theorem base_dirs_not_mutated_nondict :
    baseDirsAfterCall fsA (.vOther 0) ["/data/run1"] = ["/data/run1"] ∧
    (baseDirsAfterCall fsA (.vOther 0) ["/data/run1"]).length = 1 ∧
    abs_file_paths fsA (.vOther 0) (some ["/data/run1"]) none = Except.ok (.vOther 0) :=
  ⟨rfl, rfl, rfl⟩

/-- C10 (amended): for every call on a dict argument with a caller-supplied
non-empty base_dirs list, the working directory is appended to the caller's
list in place: afterwards the caller's list equals the original with fs.cwd
appended and is one element longer, and it is exactly the resolved
base-directory list that abs_file_paths goes on to use. -/
theorem abs_file_paths_mutates_base_dirs (fs : FS) (es : Entries)
    (l : List String) (h : l ≠ []) :
    baseDirsAfterCall fs (.vDict es) l = l ++ [fs.cwd] ∧
    (baseDirsAfterCall fs (.vDict es) l).length = l.length + 1 ∧
    resolvedBaseDirs fs (some l) = baseDirsAfterCall fs (.vDict es) l := by
  have hl : l.isEmpty = false := by
    cases l with
    | nil => exact absurd rfl h
    | cons a as => rfl
  simp [baseDirsAfterCall, resolvedBaseDirs, hl]

theorem abs_file_paths_mutates_base_dirs_witness :
    baseDirsAfterCall fsA (.vDict .enil) ["/data/run1"] = ["/data/run1"] ++ [fsA.cwd] ∧
    (baseDirsAfterCall fsA (.vDict .enil) ["/data/run1"]).length = ["/data/run1"].length + 1 ∧
    resolvedBaseDirs fsA (some ["/data/run1"]) = baseDirsAfterCall fsA (.vDict .enil) ["/data/run1"] :=
  abs_file_paths_mutates_base_dirs fsA .enil ["/data/run1"] (by decide)

theorem mapME_remapElem_error (mounts : List (String × String)) :
    ∀ l : List (Option String),
      l.any (fun x => match x with
        | some t => (dictGet mounts (dirname t)).isNone
        | none => false) = true →
      ∃ e, mapME (remapElem mounts) l = Except.error e := by
  intro l
  induction l with
  | nil => intro h; simp at h
  | cons x xs ih =>
    intro h
    cases x with
    | none =>
      exact ⟨.typeError, by simp [mapME, remapElem, expectStr, pyBind_error]⟩
    | some t =>
      rcases hm : dictGet mounts (dirname t) with _ | m
      · refine ⟨.keyError (dirname t), ?_⟩
        simp [mapME, remapElem, expectStr, pyBind_ok, hm, pyBind_error]
      · have h2 : xs.any (fun x => match x with
            | some t => (dictGet mounts (dirname t)).isNone
            | none => false) = true := by
          simp only [List.any_cons, Bool.or_eq_true] at h
          rcases h with h1 | h1
          · rw [hm] at h1; simp at h1
          · exact h1
        obtain ⟨e, he⟩ := ih h2
        exact ⟨e, by simp [mapME, remapElem, expectStr, pyBind_ok, hm, he, pyBind_error]⟩

mutual
theorem remapValue_missing (fs : FS) (mounts : List (String × String)) :
    ∀ v : Val, missingDirValue fs mounts v = true →
      ∃ e, remapValue fs v mounts = Except.error e
  | .vStr s, h => by
    rw [missingDirValue, Bool.and_eq_true] at h
    obtain ⟨hc, hn⟩ := h
    have hnone : dictGet mounts (dirname s) = none := Option.isNone_iff_eq_none.mp hn
    simp only [Bool.and_eq_true, decide_eq_true_eq] at hc
    exact ⟨.keyError (dirname s),
      by simp [remapValue, hnone, hc.1.1, hc.1.2, hc.2]⟩
  | .vList [], h => by simp [missingDirValue] at h
  | .vList (none :: rest), h => by simp [missingDirValue] at h
  | .vList (some s :: rest), h => by
    rw [missingDirValue, Bool.and_eq_true] at h
    obtain ⟨hex, hany⟩ := h
    obtain ⟨e, he⟩ := mapME_remapElem_error mounts (some s :: rest) hany
    exact ⟨e, by simp [remapValue, expectStr, pyBind_ok, hex, he, pyBind_error]⟩
  | .vOther n, h => by simp [missingDirValue] at h
  | .vDict es, h => by
    obtain ⟨e, he⟩ := remapEntries_missing fs mounts es (by simpa [missingDirValue] using h)
    exact ⟨e, by simp [remapValue, he, pyBind_error]⟩

theorem remapEntries_missing (fs : FS) (mounts : List (String × String)) :
    ∀ es : Entries, missingDirEntries fs mounts es = true →
      ∃ e, remapEntries fs es mounts = Except.error e
  | .enil, h => by simp [missingDirEntries] at h
  | .econs k v rest, h => by
    rcases hv : remapValue fs v mounts with e | v1
    · exact ⟨e, by simp [remapEntries, hv, pyBind_error]⟩
    · have hb : missingDirEntries fs mounts rest = true := by
        rw [missingDirEntries, Bool.or_eq_true] at h
        rcases h with ha | hb
        · obtain ⟨e, he⟩ := remapValue_missing fs mounts v ha
          rw [hv] at he
          exact absurd he (by simp)
        · exact hb
      obtain ⟨e, he⟩ := remapEntries_missing fs mounts rest hb
      exact ⟨e, by simp [remapEntries, hv, pyBind_ok, he, pyBind_error]⟩
end

/-- C6: if any leaf that the remap pass classifies as a path has a containing
directory that is not a key of the mount mapping, _remap_directories raises
an exception rather than returning a remapped tree. -/
theorem remap_missing_dir_raises (fs : FS) (mounts : List (String × String))
    (es : Entries) (h : missingDirEntries fs mounts es = true) :
    ∃ e, _remap_directories fs (.vDict es) mounts = Except.error e := by
  obtain ⟨e, he⟩ := remapEntries_missing fs mounts es h
  exact ⟨e, by simp [_remap_directories, he, pyBind_error]⟩

theorem remap_missing_dir_raises_witness :
    missingDirEntries fsA [] (.econs "files" (.vStr "/data/run1/sample.bam") .enil) = true ∧
    ∃ e, _remap_directories fsA
      (.vDict (.econs "files" (.vStr "/data/run1/sample.bam") .enil)) [] =
        Except.error e :=
  ⟨by decide, remap_missing_dir_raises fsA []
    (.econs "files" (.vStr "/data/run1/sample.bam") .enil) (by decide)⟩

theorem mapME_length {A B : Type} (f : A → Except PyErr B) :
    ∀ (l : List A) (ys : List B), mapME f l = Except.ok ys → ys.length = l.length := by
  intro l
  induction l with
  | nil =>
    intro ys h
    simp only [mapME, Except.ok.injEq] at h
    rw [← h]
    rfl
  | cons x xs ih =>
    intro ys h
    rw [mapME] at h
    rcases hx : f x with e | y <;> rw [hx] at h
    · simp [pyBind_error] at h
    rcases hr : mapME f xs with e | ys1 <;> rw [hr] at h
    · simp [pyBind_ok, pyBind_error] at h
    simp only [pyBind_ok, pyPure, Except.ok.injEq] at h
    rw [← h]
    simp [ih ys1 hr]

mutual
theorem remapValue_shapeFrame (fs : FS) (mounts : List (String × String)) :
    ∀ v out, remapValue fs v mounts = Except.ok out → shapeFrameValue fs v out = true
  | .vStr s, out, h => by
    by_cases hc : ((s ≠ "") && fs.fsExists s && isAbs s) = true
    · simp only [remapValue, if_pos hc] at h
      rcases hm : dictGet mounts (dirname s) with _ | m <;> rw [hm] at h
      · exact absurd h (by simp)
      · injection h with h
        rw [← h]
        simp only [shapeFrameValue, if_pos hc]
    · simp only [remapValue, if_neg hc] at h
      injection h with h
      rw [← h]
      simp only [shapeFrameValue, if_neg hc, decide_eq_true_eq]
  | .vList [], out, h => by
    simp only [remapValue, Except.ok.injEq] at h
    rw [← h]
    simp [shapeFrameValue]
  | .vList (none :: rest), out, h => by
    simp [remapValue, expectStr, pyBind_error] at h
  | .vList (some s :: rest), out, h => by
    simp only [remapValue, expectStr, pyBind_ok] at h
    by_cases hex : fs.fsExists s = true
    · rw [if_pos hex] at h
      rcases hm : mapME (remapElem mounts) (some s :: rest) with e | ys <;> rw [hm] at h
      · simp [pyBind_error] at h
      · simp only [pyBind_ok, pyPure, Except.ok.injEq] at h
        rw [← h]
        simp [shapeFrameValue, hex, mapME_length _ _ _ hm]
    · rw [if_neg hex] at h
      simp only [pyPure, Except.ok.injEq] at h
      rw [← h]
      simp [shapeFrameValue, hex]
  | .vOther n, out, h => by
    simp only [remapValue, Except.ok.injEq] at h
    rw [← h]
    simp [shapeFrameValue]
  | .vDict es, out, h => by
    simp only [remapValue] at h
    rcases hr : remapEntries fs es mounts with e | es2 <;> rw [hr] at h
    · simp [pyBind_error] at h
    · simp only [pyBind_ok, pyPure, Except.ok.injEq] at h
      rw [← h]
      simp [shapeFrameValue, remapEntries_shapeFrame fs mounts es es2 hr]

theorem remapEntries_shapeFrame (fs : FS) (mounts : List (String × String)) :
    ∀ es out, remapEntries fs es mounts = Except.ok out →
      shapeFrameEntries fs es out = true
  | .enil, out, h => by
    simp only [remapEntries, Except.ok.injEq] at h
    rw [← h]
    rfl
  | .econs k v rest, out, h => by
    simp only [remapEntries] at h
    rcases hv : remapValue fs v mounts with e | v2 <;> rw [hv] at h
    · simp [pyBind_error] at h
    rcases hr : remapEntries fs rest mounts with e | rest2 <;> rw [hr] at h
    · simp [pyBind_ok, pyBind_error] at h
    simp only [pyBind_ok, pyPure, Except.ok.injEq] at h
    rw [← h]
    simp [shapeFrameEntries, remapValue_shapeFrame fs mounts v v2 hv,
      remapEntries_shapeFrame fs mounts rest rest2 hr]
end

/-- C8: whenever _remap_directories succeeds on a dict it preserves the tree
shape exactly — the same keys in the same order at every nesting level, the
same nesting structure and the same length for every list-valued leaf — and
every leaf not classified as a path is returned equal to its input value. -/
theorem remap_preserves_shape (fs : FS) (mounts : List (String × String))
    (es : Entries) (out : Val)
    (h : _remap_directories fs (.vDict es) mounts = Except.ok out) :
    shapeFrameValue fs (.vDict es) out = true := by
  simp only [_remap_directories] at h
  rcases hr : remapEntries fs es mounts with e | es2 <;> rw [hr] at h
  · simp [pyBind_error] at h
  · simp only [pyBind_ok, pyPure, Except.ok.injEq] at h
    rw [← h]
    simp [shapeFrameValue, remapEntries_shapeFrame fs mounts es es2 hr]

theorem remap_preserves_shape_witness :
    shapeFrameValue fsA (.vDict (.econs "files" (.vStr "/data/run1/sample.bam") .enil))
      (.vDict (.econs "files" (.vStr "/mnt/in/0/sample.bam") .enil)) = true :=
  remap_preserves_shape fsA [("/data/run1", "/mnt/in/0")]
    (.econs "files" (.vStr "/data/run1/sample.bam") .enil)
    (.vDict (.econs "files" (.vStr "/mnt/in/0/sample.bam") .enil)) (by decide)

theorem expectStr_some (s : String) : expectStr (some s) = Except.ok s := rfl

theorem mapME_dirname_strs (l : List String) :
    mapME (fun e => do let t ← expectStr e; pure (dirname t)) (l.map some) =
      Except.ok (l.map dirname) := by
  induction l with
  | nil => rfl
  | cons x xs ih =>
    simp only [pyPure] at ih
    simp [mapME, expectStr_some, pyBind_ok, ih, pyPure]

theorem mapME_remapElem_ok (mounts : List (String × String)) (l : List String)
    (h : ∀ t ∈ l, (dictGet mounts (dirname t)).isSome = true) :
    mapME (remapElem mounts) (l.map some) =
      Except.ok (l.map (fun t =>
        some (pathJoin ((dictGet mounts (dirname t)).getD "") (basename t)))) := by
  induction l with
  | nil => rfl
  | cons x xs ih =>
    have hx := h x (List.mem_cons_self x xs)
    rcases hm : dictGet mounts (dirname x) with _ | m
    · rw [hm] at hx; simp at hx
    · simp [mapME, remapElem, expectStr, pyBind_ok, hm, pyPure,
        ih (fun t ht => h t (List.mem_cons_of_mem x ht))]

/-- C7 fails as stated: the list branch of _get_directories tests only
os.path.exists on the first element, with no absoluteness test, so a list
whose first element is a relative existing path does contribute directories
(here the containing directory of "a.bam" is the empty string). -/
theorem list_heuristic_relative_counterexample :
    isAbs "a.bam" = false ∧
    _get_directories fsC7 (.vDict (.econs "files" (.vList [some "a.bam"]) .enil)) =
      Except.ok [""] ∧
    ([""] : List String) ≠ [] := ⟨by decide, by decide, by decide⟩

/-- C7 (amended): for a list-valued leaf of string elements, _get_directories
emits the containing directory of every element exactly when the list is
non-empty and its first element is an existing path — existence is tested on
the value as given, with no absoluteness requirement — and _remap_directories
drives its list rewrite with the same first-element classification. -/
theorem list_first_element_heuristic (fs : FS) (k s : String) (rest : List String)
    (mounts : List (String × String))
    (hlookup : ∀ t ∈ s :: rest, (dictGet mounts (dirname t)).isSome = true) :
    _get_directories fs (.vDict (.econs k (.vList ((s :: rest).map some)) .enil)) =
      Except.ok (if fs.fsExists s then (s :: rest).map dirname else []) ∧
    _remap_directories fs (.vDict (.econs k (.vList ((s :: rest).map some)) .enil)) mounts =
      Except.ok (.vDict (.econs k
        (if fs.fsExists s then
          Val.vList ((s :: rest).map (fun t =>
            some (pathJoin ((dictGet mounts (dirname t)).getD "") (basename t))))
         else Val.vList ((s :: rest).map some)) .enil)) := by
  constructor
  · have h1 := mapME_dirname_strs (s :: rest)
    rw [List.map_cons] at h1
    simp only [pyPure] at h1
    by_cases hex : fs.fsExists s = true
    · simp [_get_directories, getDirsEntries, getDirsValue, expectStr_some, pyBind_ok,
        hex, h1, pyPure]
    · simp [_get_directories, getDirsEntries, getDirsValue, expectStr_some, pyBind_ok,
        hex, pyPure]
  · have h2 := mapME_remapElem_ok mounts (s :: rest) hlookup
    rw [List.map_cons, List.map_cons] at h2
    by_cases hex : fs.fsExists s = true
    · simp [_remap_directories, remapEntries, remapValue, expectStr_some, pyBind_ok,
        hex, h2, pyPure]
    · simp [_remap_directories, remapEntries, remapValue, expectStr_some, pyBind_ok,
        hex, pyPure]

theorem list_first_element_heuristic_witness :
    _get_directories fsA (.vDict (.econs "files"
        (.vList ((["/data/run1/sample.bam"] : List String).map some)) .enil)) =
      Except.ok (if fsA.fsExists "/data/run1/sample.bam" then
        (["/data/run1/sample.bam"] : List String).map dirname else []) ∧
    _remap_directories fsA (.vDict (.econs "files"
        (.vList ((["/data/run1/sample.bam"] : List String).map some)) .enil))
        [("/data/run1", "/mnt/in/0")] =
      Except.ok (.vDict (.econs "files"
        (if fsA.fsExists "/data/run1/sample.bam" then
          Val.vList ((["/data/run1/sample.bam"] : List String).map (fun t =>
            some (pathJoin ((dictGet [("/data/run1", "/mnt/in/0")] (dirname t)).getD "")
              (basename t))))
         else Val.vList ((["/data/run1/sample.bam"] : List String).map some)) .enil)) :=
  list_first_element_heuristic fsA "files" "/data/run1/sample.bam" []
    [("/data/run1", "/mnt/in/0")] (by decide)

theorem prepare_system_loop_realpath (dd bio : String) :
    ∀ (ds : List String) (fs : FS),
      ((prepare_system_loop dd bio fs ds).1).realpath = fs.realpath := by
  intro ds
  induction ds with
  | nil => intro fs; rfl
  | cons d ds ih =>
    intro fs
    simp only [prepare_system_loop]
    rw [ih]
    by_cases h : fs.fsExists (normpath (fs.realpath (pathJoin dd d))) = true
    · rw [if_pos h]
    · rw [if_neg h]; rfl

theorem prepare_system_loop_mono (dd bio : String) :
    ∀ (ds : List String) (fs : FS) (p : String), fs.fsExists p = true →
      ((prepare_system_loop dd bio fs ds).1).fsExists p = true := by
  intro ds
  induction ds with
  | nil => intro fs p h; exact h
  | cons d ds ih =>
    intro fs p h
    simp only [prepare_system_loop]
    apply ih
    by_cases hc : fs.fsExists (normpath (fs.realpath (pathJoin dd d))) = true
    · rw [if_pos hc]; exact h
    · rw [if_neg hc]
      simp only [mkdirs, decide_eq_true_eq]
      exact Or.inr (Or.inr h)

theorem prepare_system_loop_exists (dd bio : String) :
    ∀ (ds : List String) (fs : FS) (d : String), d ∈ ds →
      ((prepare_system_loop dd bio fs ds).1).fsExists
        (normpath (fs.realpath (pathJoin dd d))) = true := by
  intro ds
  induction ds with
  | nil => intro fs d h; cases h
  | cons a as ih =>
    intro fs d h
    simp only [prepare_system_loop]
    rcases List.mem_cons.mp h with rfl | h2
    · apply prepare_system_loop_mono
      by_cases hc : fs.fsExists (normpath (fs.realpath (pathJoin dd d))) = true
      · rw [if_pos hc]; exact hc
      · rw [if_neg hc]
        simp only [mkdirs, decide_eq_true_eq]
        left
        trivial
    · have hreq : (if fs.fsExists (normpath (fs.realpath (pathJoin dd a))) = true then fs
          else mkdirs fs (normpath (fs.realpath (pathJoin dd a)))).realpath = fs.realpath := by
        split <;> rfl
      have h3 := ih (if fs.fsExists (normpath (fs.realpath (pathJoin dd a))) = true then fs
          else mkdirs fs (normpath (fs.realpath (pathJoin dd a)))) d h2
      rw [hreq] at h3
      exact h3

theorem prepare_system_loop_fst_idem (dd bio : String) :
    ∀ (ds : List String) (fs : FS),
      (∀ d ∈ ds, fs.fsExists (normpath (fs.realpath (pathJoin dd d))) = true) →
      (prepare_system_loop dd bio fs ds).1 = fs := by
  intro ds
  induction ds with
  | nil => intro fs _; rfl
  | cons a as ih =>
    intro fs h
    simp only [prepare_system_loop]
    rw [if_pos (h a (List.mem_cons_self a as))]
    exact ih fs (fun d hd => h d (List.mem_cons_of_mem a hd))

theorem prepare_system_loop_mounts (dd bio : String) :
    ∀ (ds : List String) (fs : FS),
      (prepare_system_loop dd bio fs ds).2 =
        ds.map (fun d => normpath (fs.realpath (pathJoin dd d)) ++ ":" ++ bio ++ "/" ++ d) := by
  intro ds
  induction ds with
  | nil => intro fs; rfl
  | cons a as ih =>
    intro fs
    simp only [prepare_system_loop, List.map_cons]
    rw [ih]
    have hreq : (if fs.fsExists (normpath (fs.realpath (pathJoin dd a))) = true then fs
        else mkdirs fs (normpath (fs.realpath (pathJoin dd a)))).realpath = fs.realpath := by
      split <;> rfl
    simp only [hreq]

/-- C9: prepare_system ensures the four biodata directories genomes,
liftOver, gemini_data and galaxy exist under the data dir (creating absent
ones; a repeat invocation creates nothing and returns the identical
filesystem and mount list) and returns exactly four mount specs, one per
name, binding each resolved host directory to docker_biodata_dir/<name>. -/
theorem prepare_system_contract (fs : FS) (datadir bio : String) :
    (prepare_system fs datadir bio).2 =
      ["genomes", "liftOver", "gemini_data", "galaxy"].map
        (fun d => normpath (fs.realpath (pathJoin datadir d)) ++ ":" ++ bio ++ "/" ++ d) ∧
    (prepare_system fs datadir bio).2.length = 4 ∧
    ((prepare_system fs datadir bio).1.fsExists
        (normpath (fs.realpath (pathJoin datadir "genomes"))) = true ∧
     (prepare_system fs datadir bio).1.fsExists
        (normpath (fs.realpath (pathJoin datadir "liftOver"))) = true ∧
     (prepare_system fs datadir bio).1.fsExists
        (normpath (fs.realpath (pathJoin datadir "gemini_data"))) = true ∧
     (prepare_system fs datadir bio).1.fsExists
        (normpath (fs.realpath (pathJoin datadir "galaxy"))) = true) ∧
    prepare_system (prepare_system fs datadir bio).1 datadir bio =
      prepare_system fs datadir bio := by
  have hm := prepare_system_loop_mounts datadir bio
    ["genomes", "liftOver", "gemini_data", "galaxy"] fs
  have hreq := prepare_system_loop_realpath datadir bio
    ["genomes", "liftOver", "gemini_data", "galaxy"] fs
  refine ⟨hm, ?_, ⟨?_, ?_, ?_, ?_⟩, ?_⟩
  · rw [prepare_system, hm]; rfl
  · exact prepare_system_loop_exists datadir bio _ fs "genomes" (by decide)
  · exact prepare_system_loop_exists datadir bio _ fs "liftOver" (by decide)
  · exact prepare_system_loop_exists datadir bio _ fs "gemini_data" (by decide)
  · exact prepare_system_loop_exists datadir bio _ fs "galaxy" (by decide)
  · have hall : ∀ d ∈ ["genomes", "liftOver", "gemini_data", "galaxy"],
        ((prepare_system fs datadir bio).1).fsExists
          (normpath (((prepare_system fs datadir bio).1).realpath
            (pathJoin datadir d))) = true := by
      intro d hd
      rw [prepare_system]
      rw [show ((prepare_system_loop datadir bio fs
        ["genomes", "liftOver", "gemini_data", "galaxy"]).1).realpath = fs.realpath from hreq]
      exact prepare_system_loop_exists datadir bio _ fs d hd
    have h1 : (prepare_system (prepare_system fs datadir bio).1 datadir bio).1 =
        (prepare_system fs datadir bio).1 :=
      prepare_system_loop_fst_idem datadir bio _ _ hall
    have h2 : (prepare_system (prepare_system fs datadir bio).1 datadir bio).2 =
        (prepare_system fs datadir bio).2 := by
      rw [prepare_system]
      rw [prepare_system_loop_mounts]
      rw [show ((prepare_system fs datadir bio).1).realpath = fs.realpath from hreq]
      exact hm.symm
    exact Prod.ext h1 h2

theorem basename_data (p : String) :
    (basename p).data = (p.data.reverse.takeWhile (fun c => c ≠ '/')).reverse := rfl

theorem basename_no_slash (p : String) : startsWithSlash (basename p) = false := by
  unfold startsWithSlash
  rw [basename_data]
  cases hh : (p.data.reverse.takeWhile (fun c => c ≠ '/')).reverse with
  | nil => simp [hh]
  | cons c rest =>
    have hc : c ∈ p.data.reverse.takeWhile (fun c => c ≠ '/') := by
      have h2 : c ∈ (p.data.reverse.takeWhile (fun c => c ≠ '/')).reverse := by
        rw [hh]; exact List.mem_cons_self c rest
      exact List.mem_reverse.mp h2
    have hcp : c ≠ '/' := by simpa using List.mem_takeWhile_imp hc
    simp [List.head?, hcp]

theorem digitChar_ne_slash (n : Nat) (h : n < 10) : Nat.digitChar n ≠ '/' := by
  interval_cases n <;> decide

theorem toDigitsCore_ne_slash :
    ∀ (fuel n : Nat) (ds : List Char), (∀ c ∈ ds, c ≠ '/') →
      ∀ c ∈ Nat.toDigitsCore 10 fuel n ds, c ≠ '/' := by
  intro fuel
  induction fuel with
  | zero => intro n ds h c hc; exact h c hc
  | succ f ih =>
    intro n ds h c hc
    simp only [Nat.toDigitsCore] at hc
    have hd : ∀ c2 ∈ (Nat.digitChar (n % 10) :: ds), c2 ≠ '/' := by
      intro c2 hc2
      rcases List.mem_cons.mp hc2 with rfl | hc2
      · exact digitChar_ne_slash _ (Nat.mod_lt _ (by decide))
      · exact h c2 hc2
    by_cases hq : n / 10 = 0
    · rw [if_pos hq] at hc
      exact hd c hc
    · rw [if_neg hq] at hc
      exact ih (n / 10) _ hd c hc

theorem natRepr_no_slash (n : Nat) : startsWithSlash (Nat.repr n) = false := by
  have hall : ∀ c ∈ Nat.toDigits 10 n, c ≠ '/' := by
    intro c hc
    exact toDigitsCore_ne_slash (n + 1) n [] (by intro c2 h2; cases h2) c hc
  unfold startsWithSlash
  have hdata : (Nat.repr n).data = Nat.toDigits 10 n := rfl
  rw [hdata]
  cases hh : Nat.toDigits 10 n with
  | nil => simp
  | cons c rest =>
    have hc : c ≠ '/' := hall c (by rw [hh]; exact List.mem_cons_self c rest)
    simp [List.head?, hc]

theorem strPrefix_pathJoin_right (root m b : String)
    (hm : strPrefix root m = true) (hb : startsWithSlash b = false) :
    strPrefix root (pathJoin m b) = true := by
  unfold pathJoin
  rw [if_neg (by simp [hb])]
  by_cases hm0 : m = ""
  · rw [if_pos hm0]; exact strPrefix_append root m b hm
  · rw [if_neg hm0]
    by_cases he : endsWithSlash m = true
    · rw [if_pos he]; exact strPrefix_append root m b hm
    · rw [if_neg he]
      exact strPrefix_append root (m ++ "/") b (strPrefix_append root m "/" hm)

theorem dictGet_mem : ∀ (l : List (String × String)) (d m : String),
    dictGet l d = some m → (d, m) ∈ l := by
  intro l
  induction l with
  | nil => intro d m h; simp [dictGet] at h
  | cons kv rest ih =>
    intro d m h
    obtain ⟨k, v⟩ := kv
    rw [dictGet] at h
    by_cases hk : k = d
    · rw [if_pos hk] at h
      injection h with h
      subst hk
      rw [← h]
      exact List.mem_cons_self _ _
    · rw [if_neg hk] at h
      exact List.mem_cons_of_mem _ (ih d m h)

theorem buildMountsAux_snd (root : String) :
    ∀ (l : List String) (n : Nat) (x t : String),
      (x, t) ∈ buildMountsAux root n l → ∃ i, t = pathJoin root (Nat.repr i) := by
  intro l
  induction l with
  | nil => intro n x t h; simp [buildMountsAux] at h
  | cons d ds ih =>
    intro n x t h
    rw [buildMountsAux] at h
    rcases List.mem_cons.mp h with h1 | h2
    · exact ⟨n, (Prod.ext_iff.mp h1).2⟩
    · exact ih (n + 1) x t h2

theorem buildMounts_values_under_root (root : String) (dirs : List String) :
    ∀ d m, dictGet (buildMounts root dirs) d = some m → strPrefix root m = true := by
  intro d m h
  obtain ⟨i, hi⟩ := buildMountsAux_snd root _ 0 d m (dictGet_mem _ d m h)
  rw [hi]
  exact strPrefix_pathJoin_right root root (Nat.repr i) (strPrefix_refl root)
    (natRepr_no_slash i)

theorem normalize_path_none_of_under_root (fs : FS) (root : String)
    (hroot : startsWithSlash root = true)
    (hex : ∀ p, strPrefix root p = true → fs.fsExists p = false)
    (s : String) (hs : strPrefix root s = true) :
    ∀ bds, _normalize_path fs s bds = none := by
  intro bds
  induction bds with
  | nil => rfl
  | cons b rest ih =>
    rw [_normalize_path,
      pathJoin_absolute b s (startsWithSlash_of_strPrefix root s hroot hs),
      hex s hs]
    simpa using ih

theorem absValue_fixes_under_root (fs : FS) (root : String)
    (hroot : startsWithSlash root = true)
    (hex : ∀ p, strPrefix root p = true → fs.fsExists p = false)
    (bds ig : List String) (k : String) (v : Val)
    (hv : underRoot root v = true) :
    absValue fs bds ig k v = Except.ok v := by
  cases v with
  | vStr s =>
    have hs : strPrefix root s = true := by simpa [underRoot] using hv
    simp [absValue, normalize_path_none_of_under_root fs root hroot hex s hs bds]
  | vList l =>
    cases l with
    | nil => simp [underRoot] at hv
    | cons x rest =>
      cases x with
      | none => simp [underRoot] at hv
      | some s =>
        have hs : strPrefix root s = true := by simpa [underRoot] using hv
        simp [absValue, expectStr_some, pyBind_ok, truthyOpt, pyPure,
          normalize_path_none_of_under_root fs root hroot hex s hs bds]
  | vOther n => simp [underRoot] at hv
  | vDict es => simp [underRoot] at hv

theorem remapValue_fixes_under_root (fs : FS) (root : String)
    (hex : ∀ p, strPrefix root p = true → fs.fsExists p = false)
    (mounts : List (String × String)) (v : Val)
    (hv : underRoot root v = true) :
    remapValue fs v mounts = Except.ok v := by
  cases v with
  | vStr s =>
    have hs : strPrefix root s = true := by simpa [underRoot] using hv
    simp [remapValue, hex s hs]
  | vList l =>
    cases l with
    | nil => simp [underRoot] at hv
    | cons x rest =>
      cases x with
      | none => simp [underRoot] at hv
      | some s =>
        have hs : strPrefix root s = true := by simpa [underRoot] using hv
        simp [remapValue, expectStr_some, pyBind_ok, hex s hs, pyPure]
  | vOther n => simp [underRoot] at hv
  | vDict es => simp [underRoot] at hv

theorem entriesSet_get_same : ∀ (es : Entries) (k : String) (w nv : Val),
    entriesGet es k = some w → entriesGet (entriesSet es k nv) k = some nv
  | .enil, k, w, nv, h => by simp [entriesGet] at h
  | .econs k1 v rest, k, w, nv, h => by
    by_cases hk : k1 = k
    · rw [entriesSet, if_pos hk, entriesGet, if_pos hk]
    · rw [entriesGet, if_neg hk] at h
      rw [entriesSet, if_neg hk, entriesGet, if_neg hk]
      exact entriesSet_get_same rest k w nv h

theorem entriesSet_get_other : ∀ (es : Entries) (key k : String) (nv : Val),
    k ≠ key → entriesGet (entriesSet es key nv) k = entriesGet es k
  | .enil, key, k, nv, h => by
    have h2 : ¬ key = k := fun e => h e.symm
    simp [entriesSet, entriesGet, h2]
  | .econs k1 v rest, key, k, nv, h => by
    by_cases hk : k1 = key
    · rw [entriesSet, if_pos hk, entriesGet, entriesGet]
      have hkk : k1 ≠ k := fun e => h (e.symm.trans hk)
      rw [if_neg hkk, if_neg hkk]
    · rw [entriesSet, if_neg hk, entriesGet, entriesGet]
      by_cases hkk : k1 = k
      · rw [if_pos hkk, if_pos hkk]
      · rw [if_neg hkk, if_neg hkk]
        exact entriesSet_get_other rest key k nv h

theorem absEntries_get_some (fs : FS) (bds ig : List String) :
    ∀ (es es' : Entries), absEntries fs bds ig es = Except.ok es' →
      ∀ k v, entriesGet es k = some v →
        ∃ v', entriesGet es' k = some v' ∧ absValue fs bds ig k v = Except.ok v'
  | .enil, es', h => by
    intro k v hv
    simp [entriesGet] at hv
  | .econs k1 w rest, es', h => by
    intro k v hv
    rw [absEntries] at h
    rcases hw : absValue fs bds ig k1 w with e | w1 <;> rw [hw] at h
    · simp [pyBind_error] at h
    rcases hr : absEntries fs bds ig rest with e | rest1 <;> rw [hr] at h
    · simp [pyBind_ok, pyBind_error] at h
    simp only [pyBind_ok, pyPure, Except.ok.injEq] at h
    rw [← h]
    by_cases hk : k1 = k
    · rw [entriesGet, if_pos hk] at hv
      injection hv with hv
      refine ⟨w1, by rw [entriesGet, if_pos hk], ?_⟩
      rw [← hv]
      rw [← hk]
      exact hw
    · rw [entriesGet, if_neg hk] at hv
      obtain ⟨v', hv', ha⟩ := absEntries_get_some fs bds ig rest rest1 hr k v hv
      exact ⟨v', by rw [entriesGet, if_neg hk]; exact hv', ha⟩

theorem remapEntries_get (fs : FS) (mounts : List (String × String)) :
    ∀ (es es' : Entries), remapEntries fs es mounts = Except.ok es' → ∀ k,
      (entriesGet es k = none ∧ entriesGet es' k = none) ∨
      (∃ u u', entriesGet es k = some u ∧ entriesGet es' k = some u' ∧
        remapValue fs u mounts = Except.ok u')
  | .enil, es', h => by
    intro k
    simp only [remapEntries, Except.ok.injEq] at h
    rw [← h]
    exact Or.inl ⟨rfl, rfl⟩
  | .econs k1 v rest, es', h => by
    intro k
    rw [remapEntries] at h
    rcases hv : remapValue fs v mounts with e | v1 <;> rw [hv] at h
    · simp [pyBind_error] at h
    rcases hr : remapEntries fs rest mounts with e | rest1 <;> rw [hr] at h
    · simp [pyBind_ok, pyBind_error] at h
    simp only [pyBind_ok, pyPure, Except.ok.injEq] at h
    rw [← h]
    by_cases hk : k1 = k
    · exact Or.inr ⟨v, v1, by rw [entriesGet, if_pos hk],
        by rw [entriesGet, if_pos hk], hv⟩
    · rcases remapEntries_get fs mounts rest rest1 hr k with ⟨h1, h2⟩ | ⟨u, u', h1, h2, h3⟩
      · exact Or.inl ⟨by rw [entriesGet, if_neg hk]; exact h1,
          by rw [entriesGet, if_neg hk]; exact h2⟩
      · exact Or.inr ⟨u, u', by rw [entriesGet, if_neg hk]; exact h1,
          by rw [entriesGet, if_neg hk]; exact h2, h3⟩

theorem mapME_get {A B : Type} (f : A → Except PyErr B) :
    ∀ (l : List A) (l' : List B), mapME f l = Except.ok l' → ∀ (i : Nat),
      (l[i]? = none ∧ l'[i]? = none) ∨
      (∃ a b, l[i]? = some a ∧ l'[i]? = some b ∧ f a = Except.ok b) := by
  intro l
  induction l with
  | nil =>
    intro l' h i
    simp only [mapME, Except.ok.injEq] at h
    subst h
    exact Or.inl ⟨List.getElem?_nil, List.getElem?_nil⟩
  | cons x xs ih =>
    intro l' h i
    rw [mapME] at h
    rcases hx : f x with e | y <;> rw [hx] at h
    · simp [pyBind_error] at h
    rcases hr : mapME f xs with e | ys <;> rw [hr] at h
    · simp [pyBind_ok, pyBind_error] at h
    simp only [pyBind_ok, pyPure, Except.ok.injEq] at h
    rw [← h]
    cases i with
    | zero => exact Or.inr ⟨x, y, by simp, by simp, hx⟩
    | succ j =>
      simpa [List.getElem?_cons_succ] using ih ys hr j

theorem mapME_head {A B : Type} (f : A → Except PyErr B) (x : A) (xs : List A)
    (ys : List B) (h : mapME f (x :: xs) = Except.ok ys) :
    ∃ y ys', ys = y :: ys' ∧ f x = Except.ok y ∧ mapME f xs = Except.ok ys' := by
  rw [mapME] at h
  rcases hx : f x with e | y <;> rw [hx] at h
  · simp [pyBind_error] at h
  rcases hr : mapME f xs with e | ys' <;> rw [hr] at h
  · simp [pyBind_ok, pyBind_error] at h
  simp only [pyBind_ok, pyPure, Except.ok.injEq] at h
  exact ⟨y, ys', h.symm, rfl, rfl⟩

theorem abs_file_paths_dict (fs : FS) (bd : Option (List String))
    (ig : Option (List String)) (es : Entries) (u : Val)
    (h : abs_file_paths fs (.vDict es) bd ig = Except.ok u) :
    ∃ es1, absEntries fs (resolvedBaseDirs fs bd) (ig.getD []) es = Except.ok es1 ∧
      u = .vDict es1 := by
  simp only [abs_file_paths] at h
  rcases he : absEntries fs (resolvedBaseDirs fs bd) (ig.getD []) es with e | es1 <;>
    rw [he] at h
  · simp [pyBind_error] at h
  · simp only [pyBind_ok, pyPure, Except.ok.injEq] at h
    exact ⟨es1, rfl, h.symm⟩

theorem absEntries_pos (fs : FS) (root : String)
    (hroot : startsWithSlash root = true)
    (hex : ∀ p, strPrefix root p = true → fs.fsExists p = false)
    (bds ig : List String) (es es1 : Entries)
    (habs : absEntries fs bds ig es = Except.ok es1)
    (ks : List String) (v : Val)
    (hv : valAtV ks (.vDict es) = some v) (hu : underRoot root v = true) :
    valAtV ks (.vDict es1) = some v := by
  cases ks with
  | nil =>
    simp only [valAtV, Option.some.injEq] at hv
    rw [← hv] at hu
    simp [underRoot] at hu
  | cons k ks' =>
    simp only [valAtV] at hv ⊢
    rcases hg : entriesGet es k with _ | w <;> rw [hg] at hv
    · simp at hv
    obtain ⟨w1, hw1, ha⟩ := absEntries_get_some fs bds ig es es1 habs k w hg
    rw [hw1]
    cases ks' with
    | nil =>
      have hwv : w = v := by simpa [valAtV] using hv
      subst hwv
      have hfix := absValue_fixes_under_root fs root hroot hex bds ig k w hu
      rw [hfix] at ha
      injection ha with ha
      simp [valAtV, ← ha]
    | cons k2 ks'' =>
      cases w with
      | vDict es2 =>
        have hid : absValue fs bds ig k (.vDict es2) = Except.ok (.vDict es2) := rfl
        rw [hid] at ha
        injection ha with ha
        rw [← ha]
        exact hv
      | vStr s => simp [valAtV] at hv
      | vList l => simp [valAtV] at hv
      | vOther n => simp [valAtV] at hv

theorem absDetail_pos (fs : FS) (root : String) (fcdir : Option String)
    (hroot : startsWithSlash root = true)
    (hex : ∀ p, strPrefix root p = true → fs.fsExists p = false)
    (d d' : Val) (h : absDetail fs fcdir d = Except.ok d')
    (ks : List String) (v : Val)
    (hv : valAtV ks d = some v) (hu : underRoot root v = true) :
    valAtV ks d' = some v := by
  cases d with
  | vStr s => simp [absDetail, abs_file_paths, dGetItem, pyBind_ok, pyBind_error] at h
  | vList l => simp [absDetail, abs_file_paths, dGetItem, pyBind_ok, pyBind_error] at h
  | vOther n => simp [absDetail, abs_file_paths, dGetItem, pyBind_ok, pyBind_error] at h
  | vDict es =>
    rw [absDetail] at h
    rcases h1 : abs_file_paths fs (.vDict es) (fcBaseDirs fcdir) (some topIgnore)
      with e | d1 <;> rw [h1] at h
    · simp [pyBind_error] at h
    obtain ⟨es1, hes1, hd1⟩ := abs_file_paths_dict fs _ _ es d1 h1
    subst hd1
    rw [pyBind_ok] at h
    rcases h2 : dGetItem (.vDict es1) "algorithm" with e | alg <;> rw [h2] at h
    · simp [pyBind_error] at h
    rw [pyBind_ok] at h
    rcases h3 : abs_file_paths fs alg (fcBaseDirs fcdir) (some algIgnore)
      with e | alg' <;> rw [h3] at h
    · simp [pyBind_error] at h
    rw [pyBind_ok] at h
    simp only [dSetItem, Except.ok.injEq] at h
    have halg : entriesGet es1 "algorithm" = some alg := by
      rw [dGetItem] at h2
      rcases hg : entriesGet es1 "algorithm" with _ | a
      · rw [hg] at h2; simp at h2
      · rw [hg] at h2
        simp only [Except.ok.injEq] at h2
        rw [h2]
    have hstep1 : valAtV ks (.vDict es1) = some v :=
      absEntries_pos fs root hroot hex _ _ es es1 hes1 ks v hv hu
    rw [← h]
    cases ks with
    | nil =>
      simp only [valAtV, Option.some.injEq] at hstep1
      rw [← hstep1] at hu
      simp [underRoot] at hu
    | cons k ks' =>
      by_cases hk : k = "algorithm"
      · subst hk
        simp only [valAtV, halg] at hstep1
        cases ks' with
        | nil =>
          have hav : alg = v := by simpa [valAtV] using hstep1
          subst hav
          have halg' : alg' = alg := by
            cases alg with
            | vDict es2 => exact absurd hu (by simp [underRoot])
            | vOther n2 => exact absurd hu (by simp [underRoot])
            | vStr s2 =>
              have hrfl : abs_file_paths fs (.vStr s2) (fcBaseDirs fcdir) (some algIgnore) =
                  Except.ok (.vStr s2) := rfl
              rw [hrfl] at h3
              injection h3 with h3
              exact h3.symm
            | vList l2 =>
              have hrfl : abs_file_paths fs (.vList l2) (fcBaseDirs fcdir) (some algIgnore) =
                  Except.ok (.vList l2) := rfl
              rw [hrfl] at h3
              injection h3 with h3
              exact h3.symm
          subst halg'
          have hset := entriesSet_get_same es1 "algorithm" alg' alg' halg
          simp [valAtV, hset]
        | cons k2 ks'' =>
          have hset := entriesSet_get_same es1 "algorithm" alg alg' halg
          simp only [valAtV, hset]
          cases alg with
          | vDict es2 =>
            obtain ⟨es2', hes2, halg'⟩ := abs_file_paths_dict fs _ _ es2 alg' h3
            subst halg'
            exact absEntries_pos fs root hroot hex _ _ es2 es2' hes2 (k2 :: ks'') v hstep1 hu
          | vStr s2 => simp [valAtV] at hstep1
          | vList l2 => simp [valAtV] at hstep1
          | vOther n2 => simp [valAtV] at hstep1
      · have hso := entriesSet_get_other es1 "algorithm" k alg' hk
        simp only [valAtV, hso]
        simp only [valAtV] at hstep1
        exact hstep1

theorem remap_pos (fs : FS) (root : String)
    (hex : ∀ p, strPrefix root p = true → fs.fsExists p = false)
    (mounts : List (String × String)) :
    ∀ (ks : List String) (v v' : Val), remapValue fs v mounts = Except.ok v' →
      ∀ w, valAtV ks v = some w → underRoot root w = true → valAtV ks v' = some w := by
  intro ks
  induction ks with
  | nil =>
    intro v v' h w hw hu
    have hwv : v = w := by simpa [valAtV] using hw
    subst hwv
    rw [remapValue_fixes_under_root fs root hex mounts v hu] at h
    injection h with h
    rw [← h]
    simp [valAtV]
  | cons k ks' ih =>
    intro v v' h w hw hu
    cases v with
    | vStr s => simp [valAtV] at hw
    | vList l => simp [valAtV] at hw
    | vOther n => simp [valAtV] at hw
    | vDict es =>
      simp only [remapValue] at h
      rcases hr : remapEntries fs es mounts with e | es' <;> rw [hr] at h
      · simp [pyBind_error] at h
      simp only [pyBind_ok, pyPure, Except.ok.injEq] at h
      rw [← h]
      simp only [valAtV] at hw ⊢
      rcases hg : entriesGet es k with _ | u
      · rw [hg] at hw; simp at hw
      rw [hg] at hw
      rcases remapEntries_get fs mounts es es' hr k with ⟨h1, _⟩ | ⟨u0, u', h1, h2, h3⟩
      · rw [hg] at h1; simp at h1
      · rw [hg] at h1
        injection h1 with h1
        rw [h2]
        rw [← h1] at h3
        exact ih u u' h3 w hw hu

theorem remap_changes_under_root (fs : FS) (root : String)
    (mounts : List (String × String))
    (hmv : ∀ d m, dictGet mounts d = some m → strPrefix root m = true) :
    ∀ (ks : List String) (v v' : Val), remapValue fs v mounts = Except.ok v' →
      ∀ w', valAtV ks v' = some w' → (∀ es2, w' ≠ Val.vDict es2) →
        valAtV ks v = some w' ∨ underRoot root w' = true := by
  intro ks
  induction ks with
  | nil =>
    intro v v' h w' hw' hnd
    have hv'w : v' = w' := by simpa [valAtV] using hw'
    subst hv'w
    cases v with
    | vStr s =>
      by_cases hc : ((s ≠ "") && fs.fsExists s && isAbs s) = true
      · simp only [remapValue, if_pos hc] at h
        rcases hm : dictGet mounts (dirname s) with _ | m <;> rw [hm] at h
        · simp at h
        · injection h with h
          right
          rw [← h]
          simp only [underRoot]
          exact strPrefix_pathJoin_right root m (basename s) (hmv _ m hm) (basename_no_slash s)
      · simp only [remapValue, if_neg hc] at h
        injection h with h
        left
        simp [valAtV, h]
    | vOther n =>
      simp only [remapValue, Except.ok.injEq] at h
      left
      simp [valAtV, h]
    | vDict es =>
      simp only [remapValue] at h
      rcases hr : remapEntries fs es mounts with e | es' <;> rw [hr] at h
      · simp [pyBind_error] at h
      simp only [pyBind_ok, pyPure, Except.ok.injEq] at h
      exact absurd h.symm (hnd es')
    | vList l =>
      cases l with
      | nil =>
        simp only [remapValue, Except.ok.injEq] at h
        left
        simp [valAtV, h]
      | cons x rest =>
        cases x with
        | none => simp [remapValue, expectStr, pyBind_error] at h
        | some s =>
          simp only [remapValue, expectStr_some, pyBind_ok] at h
          by_cases hex2 : fs.fsExists s = true
          · rw [if_pos hex2] at h
            rcases hm2 : mapME (remapElem mounts) (some s :: rest) with e | ys <;>
              rw [hm2] at h
            · simp [pyBind_error] at h
            simp only [pyBind_ok, pyPure, Except.ok.injEq] at h
            obtain ⟨y, ys', hys, hy, _⟩ := mapME_head _ _ _ _ hm2
            simp only [remapElem, expectStr_some, pyBind_ok] at hy
            rcases hm3 : dictGet mounts (dirname s) with _ | m <;> rw [hm3] at hy
            · simp at hy
            · injection hy with hy
              right
              rw [← h, hys, ← hy]
              simp only [underRoot]
              exact strPrefix_pathJoin_right root m (basename s) (hmv _ m hm3)
                (basename_no_slash s)
          · rw [if_neg hex2] at h
            simp only [pyPure, Except.ok.injEq] at h
            left
            simp [valAtV, h]
  | cons k ks' ih =>
    intro v v' h w' hw' hnd
    cases v' with
    | vStr s => simp [valAtV] at hw'
    | vList l => simp [valAtV] at hw'
    | vOther n => simp [valAtV] at hw'
    | vDict es' =>
      cases v with
      | vStr s =>
        by_cases hc : ((s ≠ "") && fs.fsExists s && isAbs s) = true
        · simp only [remapValue, if_pos hc] at h
          rcases hm : dictGet mounts (dirname s) with _ | m <;> rw [hm] at h
          · simp at h
          · simp at h
        · simp only [remapValue, if_neg hc] at h
          simp at h
      | vOther n => simp [remapValue] at h
      | vList l =>
        cases l with
        | nil => simp [remapValue] at h
        | cons x rest =>
          cases x with
          | none => simp [remapValue, expectStr, pyBind_error] at h
          | some s =>
            simp only [remapValue, expectStr_some, pyBind_ok] at h
            by_cases hex2 : fs.fsExists s = true
            · rw [if_pos hex2] at h
              rcases hm2 : mapME (remapElem mounts) (some s :: rest) with e | ys <;>
                rw [hm2] at h
              · simp [pyBind_error] at h
              · simp [pyBind_ok, pyPure] at h
            · rw [if_neg hex2] at h
              simp [pyPure] at h
      | vDict es =>
        simp only [remapValue] at h
        rcases hr : remapEntries fs es mounts with e | es2 <;> rw [hr] at h
        · simp [pyBind_error] at h
        simp only [pyBind_ok, pyPure, Except.ok.injEq, Val.vDict.injEq] at h
        subst h
        simp only [valAtV] at hw' ⊢
        rcases hg' : entriesGet es2 k with _ | u'
        · rw [hg'] at hw'; simp at hw'
        rw [hg'] at hw'
        rcases remapEntries_get fs mounts es es2 hr k with ⟨_, h2⟩ | ⟨u, u2, h1, h2, h3⟩
        · rw [hg'] at h2; simp at h2
        · rw [hg'] at h2
          injection h2 with h2
          rcases ih u u2 h3 w' (by rw [← h2]; simpa using hw') hnd with hleft | hright
          · left
            rw [h1]
            exact hleft
          · right
            exact hright

theorem remap_dir_eq_value (fs : FS) (es : Entries) (mounts : List (String × String)) :
    _remap_directories fs (.vDict es) mounts = remapValue fs (.vDict es) mounts := rfl

theorem remap_dir_pos (fs : FS) (root : String)
    (hex : ∀ p, strPrefix root p = true → fs.fsExists p = false)
    (mounts : List (String × String)) (ks : List String) (v v' : Val)
    (h : _remap_directories fs v mounts = Except.ok v') (w : Val)
    (hw : valAtV ks v = some w) (hu : underRoot root w = true) :
    valAtV ks v' = some w := by
  cases v with
  | vDict es =>
    rw [remap_dir_eq_value] at h
    exact remap_pos fs root hex mounts ks (.vDict es) v' h w hw hu
  | vStr s =>
    simp only [_remap_directories, Except.ok.injEq] at h
    rw [← h]
    exact hw
  | vList l =>
    simp only [_remap_directories, Except.ok.injEq] at h
    rw [← h]
    exact hw
  | vOther n =>
    simp only [_remap_directories, Except.ok.injEq] at h
    rw [← h]
    exact hw

theorem remap_dir_changes (fs : FS) (root : String)
    (mounts : List (String × String))
    (hmv : ∀ d m, dictGet mounts d = some m → strPrefix root m = true)
    (ks : List String) (v v' w' : Val)
    (h : _remap_directories fs v mounts = Except.ok v')
    (hw' : valAtV ks v' = some w') (hnd : ∀ es2, w' ≠ Val.vDict es2) :
    valAtV ks v = some w' ∨ underRoot root w' = true := by
  cases v with
  | vDict es =>
    rw [remap_dir_eq_value] at h
    exact remap_changes_under_root fs root mounts hmv ks (.vDict es) v' h w' hw' hnd
  | vStr s =>
    simp only [_remap_directories, Except.ok.injEq] at h
    left
    rw [h]
    exact hw'
  | vList l =>
    simp only [_remap_directories, Except.ok.injEq] at h
    left
    rw [h]
    exact hw'
  | vOther n =>
    simp only [_remap_directories, Except.ok.injEq] at h
    left
    rw [h]
    exact hw'

theorem update_config_unfold (fs : FS) (fcdir : Option String) (details : List Val)
    (input_dir : String) (dets : List Val) (specs : List String)
    (h : update_config fs fcdir details input_dir = Except.ok (dets, specs)) :
    ∃ pairs, mapME (detailStep fs fcdir) details = Except.ok pairs ∧
      mapME (fun d => _remap_directories fs d
          (buildMounts input_dir ((pairs.map Prod.snd).flatten))) (pairs.map Prod.fst) =
        Except.ok dets := by
  simp only [update_config] at h
  rcases hp : mapME (detailStep fs fcdir) details with e | pairs <;> rw [hp] at h
  · simp [pyBind_error] at h
  simp only [pyBind_ok] at h
  rcases hn : mapME (fun d => _remap_directories fs d
      (buildMounts input_dir ((pairs.map Prod.snd).flatten))) (pairs.map Prod.fst)
    with e | newdetails <;> rw [hn] at h
  · simp [pyBind_error] at h
  · simp only [pyBind_ok, pyPure, Except.ok.injEq, Prod.mk.injEq] at h
    refine ⟨pairs, rfl, ?_⟩
    rw [hn, h.1]

theorem detailStep_abs (fs : FS) (fcdir : Option String) (d : Val)
    (pr : Val × List String) (h : detailStep fs fcdir d = Except.ok pr) :
    absDetail fs fcdir d = Except.ok pr.1 := by
  rw [detailStep] at h
  rcases ha : absDetail fs fcdir d with e | d' <;> rw [ha] at h
  · simp [pyBind_error] at h
  rw [pyBind_ok] at h
  rcases hg : _get_directories fs d' with e | dirs <;> rw [hg] at h
  · simp [pyBind_error] at h
  · rw [pyBind_ok] at h
    simp only [pyPure, Except.ok.injEq] at h
    subst h
    rfl

/-- C3: idempotence for remapped fields.  With an absolute mount root none of
whose paths exist on the host, consider a first update_config run: every
field the remap pass rewrote — a non-dict leaf whose value in the returned
details differs from the absolutized details — holds a mount-rooted value,
and a second update_config run over the first run's output returns that
field unchanged. -/
theorem update_config_idempotent_on_remapped (fs : FS) (fcdir : Option String)
    (details det1 det2 : List Val) (m1 m2 : List String) (input_dir : String)
    (pairs : List (Val × List String))
    (hroot : startsWithSlash input_dir = true)
    (hex : ∀ p, strPrefix input_dir p = true → fs.fsExists p = false)
    (hpairs : mapME (detailStep fs fcdir) details = Except.ok pairs)
    (h1 : update_config fs fcdir details input_dir = Except.ok (det1, m1))
    (h2 : update_config fs fcdir det1 input_dir = Except.ok (det2, m2))
    (i : Nat) (ks : List String) (w : Val)
    (hw : valAtD det1 i ks = some w)
    (hleaf : ∀ es, w ≠ Val.vDict es)
    (hch : valAtD (pairs.map Prod.fst) i ks ≠ some w) :
    valAtD det2 i ks = some w := by
  obtain ⟨p1, hp1, hr1⟩ := update_config_unfold fs fcdir details input_dir det1 m1 h1
  have hpe : p1 = pairs := by
    rw [hp1] at hpairs
    injection hpairs
  subst hpe
  rcases hd1 : det1[i]? with _ | d1
  · rw [valAtD, hd1] at hw; simp at hw
  rw [valAtD, hd1] at hw
  have hw2 : valAtV ks d1 = some w := hw
  rcases mapME_get _ (p1.map Prod.fst) det1 hr1 i with ⟨_, hB⟩ | ⟨a, b, hA, hB, hf⟩
  · rw [hd1] at hB; simp at hB
  rw [hd1] at hB
  injection hB with hB
  rw [← hB] at hf
  have hmv := buildMounts_values_under_root input_dir ((p1.map Prod.snd).flatten)
  have hur : underRoot input_dir w = true := by
    rcases remap_dir_changes fs input_dir _ hmv ks a d1 w hf hw2 hleaf with hl | hr
    · exfalso
      apply hch
      rw [valAtD, hA]
      exact hl
    · exact hr
  obtain ⟨p2, hp2, hr2⟩ := update_config_unfold fs fcdir det1 input_dir det2 m2 h2
  rcases mapME_get _ det1 p2 hp2 i with ⟨hA2, _⟩ | ⟨d1b, pr, hA2, hB2, hf2⟩
  · rw [hd1] at hA2; simp at hA2
  rw [hd1] at hA2
  injection hA2 with hA2
  subst hA2
  have habs2 : absDetail fs fcdir d1 = Except.ok pr.1 :=
    detailStep_abs fs fcdir d1 pr hf2
  have hstep : valAtV ks pr.1 = some w :=
    absDetail_pos fs input_dir fcdir hroot hex d1 pr.1 habs2 ks w hw2 hur
  rcases mapME_get _ (p2.map Prod.fst) det2 hr2 i with ⟨hA3, _⟩ | ⟨c, d2, hA3, hB3, hf3⟩
  · rw [List.getElem?_map, hB2] at hA3
    simp at hA3
  · rw [List.getElem?_map, hB2] at hA3
    simp only [Option.map_some'] at hA3
    injection hA3 with hA3
    rw [valAtD, hB3]
    rw [← hA3] at hf3
    exact remap_dir_pos fs input_dir hex _ ks pr.1 d2 hf3 w hstep hur

theorem update_config_idempotent_on_remapped_witness :
    valAtD [detailA_mapped] 0 ["files"] = some (.vStr "/mnt/in/0/sample.bam") := by
  have hex : ∀ p, strPrefix "/mnt/in" p = true → fsA.fsExists p = false := by
    intro p hp
    show (decide (p = "/data/run1/sample.bam")) = false
    by_cases he : p = "/data/run1/sample.bam"
    · subst he
      exact absurd hp (by decide)
    · simp [he]
  exact update_config_idempotent_on_remapped fsA (some "/data/run1") [detailA]
    [detailA_mapped] [detailA_mapped] ["/data/run1:/mnt/in/0"] [] "/mnt/in"
    [(detailA_abs, ["/data/run1"])]
    (by decide) hex (by decide) (by decide) (by decide) 0 ["files"]
    (.vStr "/mnt/in/0/sample.bam") (by decide) (fun es h => Val.noConfusion h) (by decide)
